/-
Verification of the workspace materialization and refresh engine of gitfs
(`populate/deref.go`): the repo-tree model, the diff engine (`changedFiles`),
the link cleaner (`clearLinks`), the link planner (`createTreeLinks`,
`createLinks`, `symlinkRepo`) and the `Checkout` orchestrator, shallowly
embedded in Lean.  Go strings are modelled as Lean `String` with explicit
byte-lexicographic comparison functions over `String.data` (Go compares
strings bytewise; on UTF-8 the byte order equals the code-point order used
here).  Go maps are modelled as association lists; the (arbitrary) iteration
order of a Go map is modelled by the order of the list, and results that are
order-independent in the code (for example after sorting) are proved so.
-/
import Mathlib

/-! ## String primitives (Go `strings` / byte-wise comparison) -/

/-- Byte order on characters, `a.val < b.val` in Go terms. -/
def chLt (a b : Char) : Bool := a.toNat < b.toNat

/-- Lexicographic order on character lists: Go `a < b` on strings. -/
def lexLt : List Char → List Char → Bool
  | [], [] => false
  | [], _ :: _ => true
  | _ :: _, [] => false
  | a :: as, b :: bs => chLt a b || (a == b && lexLt as bs)

/-- Go string comparison `a < b`. -/
def strLt (a b : String) : Bool := lexLt a.data b.data

/-- Go string comparison `a <= b`. -/
def strLe (a b : String) : Bool := strLt a b || a == b

/-- `strLe` as a proposition (lexicographically at most). -/
def SLe (a b : String) : Prop := strLe a b = true

instance : DecidablePred fun p : String × String => SLe p.1 p.2 := by
  intro p; unfold SLe; infer_instance

instance (a b : String) : Decidable (SLe a b) := by
  unfold SLe; infer_instance

/-- Go `strings.HasPrefix` on character lists. -/
def hasPre : List Char → List Char → Bool
  | [], _ => true
  | _ :: _, [] => false
  | p :: ps, s :: ss => p == s && hasPre ps ss

/-- Go `strings.HasPrefix s pre` (note argument order: text second). -/
def strHasPre (pre s : String) : Bool := hasPre pre.data s.data

/-- Go `strings.TrimPrefix` on character lists. -/
def trimPre (p s : List Char) : List Char := if hasPre p s then s.drop p.length else s

/-- Go `strings.TrimPrefix s pre`. -/
def strTrimPre (pre s : String) : String := ⟨trimPre pre.data s.data⟩

/-- Keep everything strictly before the first `/`, the whole list when none:
Go `if i := strings.Index(s, "/"); i != -1 { s = s[:i] }`. -/
def cutSlash (s : List Char) : List Char := s.takeWhile (· != '/')

/-- Go `strings.Split` at `/` on character lists. -/
def splitSlash : List Char → List (List Char)
  | [] => [[]]
  | c :: cs =>
    let r := splitSlash cs
    if c == '/' then [] :: r
    else
      match r with
      | s :: rest => (c :: s) :: rest
      | [] => [[c]]

/-- Join segments back with `/`. -/
def joinSegs : List (List Char) → List Char
  | [] => []
  | [s] => s
  | s :: rest => s ++ '/' :: joinSegs rest

/-! ### Order lemmas for the string comparison -/

theorem chLt_trans {a b c : Char} (h1 : chLt a b = true) (h2 : chLt b c = true) :
    chLt a c = true := by
  simp only [chLt, decide_eq_true_eq] at *
  omega

theorem chLt_irrefl (a : Char) : chLt a a = false := by
  simp [chLt]

theorem chLt_or_eq_or_gt (a b : Char) : chLt a b = true ∨ a = b ∨ chLt b a = true := by
  simp only [chLt, decide_eq_true_eq]
  rcases Nat.lt_trichotomy a.toNat b.toNat with h | h | h
  · exact Or.inl h
  · exact Or.inr (Or.inl (Char.eq_of_val_eq (by
      have : a.val.toNat = b.val.toNat := h
      exact UInt32.toNat.inj this)))
  · exact Or.inr (Or.inr h)

theorem lexLt_irrefl (l : List Char) : lexLt l l = false := by
  induction l with
  | nil => rfl
  | cons a as ih => simp [lexLt, chLt_irrefl, ih]

theorem lexLt_trans {a b c : List Char} (h1 : lexLt a b = true) (h2 : lexLt b c = true) :
    lexLt a c = true := by
  induction a generalizing b c with
  | nil =>
    cases b with
    | nil => simp [lexLt] at h1
    | cons y ys => cases c with
      | nil => simp [lexLt] at h2
      | cons z zs => simp [lexLt]
  | cons x xs ih =>
    cases b with
    | nil => simp [lexLt] at h1
    | cons y ys =>
      cases c with
      | nil => simp [lexLt] at h2
      | cons z zs =>
        simp only [lexLt, Bool.or_eq_true, Bool.and_eq_true, beq_iff_eq] at h1 h2 ⊢
        rcases h1 with h1 | ⟨rfl, h1⟩
        · rcases h2 with h2 | ⟨rfl, h2⟩
          · exact Or.inl (chLt_trans h1 h2)
          · exact Or.inl h1
        · rcases h2 with h2 | ⟨rfl, h2⟩
          · exact Or.inl h2
          · exact Or.inr ⟨rfl, ih h1 h2⟩

theorem lexLt_total (a b : List Char) : lexLt a b = true ∨ a = b ∨ lexLt b a = true := by
  induction a generalizing b with
  | nil => cases b with
    | nil => exact Or.inr (Or.inl rfl)
    | cons y ys => exact Or.inl rfl
  | cons x xs ih =>
    cases b with
    | nil => exact Or.inr (Or.inr rfl)
    | cons y ys =>
      rcases chLt_or_eq_or_gt x y with h | rfl | h
      · exact Or.inl (by simp [lexLt, h])
      · rcases ih ys with h | rfl | h
        · exact Or.inl (by simp [lexLt, h])
        · exact Or.inr (Or.inl rfl)
        · exact Or.inr (Or.inr (by simp [lexLt, h]))
      · exact Or.inr (Or.inr (by simp [lexLt, h]))

theorem strLe_total (a b : String) : SLe a b ∨ SLe b a := by
  unfold SLe strLe strLt
  rcases lexLt_total a.data b.data with h | h | h
  · exact Or.inl (by simp [h])
  · exact Or.inl (by simp [String.ext h])
  · exact Or.inr (by simp [h])

theorem SLe_trans {a b c : String} (h1 : SLe a b) (h2 : SLe b c) : SLe a c := by
  unfold SLe strLe strLt at *
  simp only [Bool.or_eq_true, beq_iff_eq] at h1 h2 ⊢
  rcases h1 with h1 | rfl
  · rcases h2 with h2 | rfl
    · exact Or.inl (lexLt_trans h1 h2)
    · exact Or.inl h1
  · rcases h2 with h2 | rfl
    · exact Or.inl h2
    · exact Or.inr rfl

/-! ## `sort.Strings` model

Go's `sort.Strings` sorts a string slice in increasing byte-lexicographic
order; its observable behaviour is exactly "a sorted permutation of the
input", which the insertion sort below produces. -/

/-- Insert a string into an already sorted list. -/
def insertStr (a : String) : List String → List String
  | [] => [a]
  | b :: l => if strLe a b then a :: b :: l else b :: insertStr a l

/-- Model of Go `sort.Strings`. -/
def sortStrings (l : List String) : List String := l.foldr insertStr []

theorem mem_insertStr {a x : String} {l : List String} :
    x ∈ insertStr a l ↔ x = a ∨ x ∈ l := by
  induction l with
  | nil => simp [insertStr]
  | cons b l ih =>
    by_cases h : strLe a b = true
    · rw [insertStr, if_pos h]
      simp
    · rw [insertStr, if_neg h]
      simp only [List.mem_cons, ih]
      tauto

theorem mem_sortStrings {x : String} {l : List String} :
    x ∈ sortStrings l ↔ x ∈ l := by
  induction l with
  | nil => simp [sortStrings]
  | cons b l ih =>
    simp only [sortStrings, List.foldr_cons, mem_insertStr, List.mem_cons]
    rw [show l.foldr insertStr [] = sortStrings l from rfl] at *
    simp [ih]

theorem sorted_insertStr {a : String} {l : List String} (h : List.Sorted SLe l) :
    List.Sorted SLe (insertStr a l) := by
  induction l with
  | nil => simp [insertStr]
  | cons b l ih =>
    rw [List.sorted_cons] at h
    by_cases hab : strLe a b = true
    · rw [insertStr, if_pos hab, List.sorted_cons]
      refine ⟨?_, List.sorted_cons.2 h⟩
      intro x hx
      rcases List.mem_cons.1 hx with rfl | hx
      · exact hab
      · exact SLe_trans hab (h.1 x hx)
    · rw [insertStr, if_neg hab, List.sorted_cons]
      refine ⟨?_, ih h.2⟩
      intro x hx
      rcases mem_insertStr.1 hx with hxa | hx
      · rw [hxa]
        rcases strLe_total a b with hba | hba
        · exact absurd hba hab
        · exact hba
      · exact h.1 x hx

theorem sorted_sortStrings (l : List String) : List.Sorted SLe (sortStrings l) := by
  induction l with
  | nil => simp [sortStrings]
  | cons b l ih => exact sorted_insertStr ih

/-! ## Data model: `fileInfo` (populate/deref.go)

A git object id (`git.Oid`) is a 20-byte hash; we model it as the list of
its bytes.  `fileInfo.sha1` is `nil`-able in the source (`*git.Oid`), hence
an `Option`. -/

/-- 20-byte git object id (`git.Oid`), as its byte list. -/
abbrev Oid := List Nat

/-- `type fileInfo struct { sha1 *git.Oid; isLink bool }`. -/
structure fileInfo where
  sha1 : Option Oid
  isLink : Bool
deriving DecidableEq, Repr

/-- A flattened file map (Go `map[string]*fileInfo`), as an association
list; the list order models the map's iteration order. -/
abbrev FileMap := List (String × fileInfo)

/-- Go map lookup `m[path]`. -/
def lookupFM (m : FileMap) (p : String) : Option fileInfo :=
  (m.find? (fun e => e.1 == p)).map (·.2)

/-! ## Diff engine: `changedFiles` (deref.go, lines 493-517) -/

/-- The body of the `changedFiles` loop for one entry of `newInfos`:
`true` when `path` is appended to `changed`. -/
def changedEntry (oldInfos : FileMap) (path : String) (info : fileInfo) : Bool :=
  match lookupFM oldInfos path with
  | none => true
  | some old =>
    if info.isLink then false
    else
      match old.sha1, info.sha1 with
      | none, _ => true
      | _, none => true
      | some a, some b => a != b

/-- `func changedFiles(oldInfos, newInfos map[string]*fileInfo) ([]string, error)`:
collect the new-map paths that pass `changedEntry`, then `sort.Strings`.
(The Go function's error result is always `nil`.) -/
def changedFiles (oldInfos newInfos : FileMap) : List String :=
  sortStrings ((newInfos.filter (fun e => changedEntry oldInfos e.1 e.2)).map (·.1))

/-! ### Membership characterization of the change list -/

theorem mem_changedFiles {oldInfos newInfos : FileMap} {p : String} :
    p ∈ changedFiles oldInfos newInfos ↔
      ∃ i, (p, i) ∈ newInfos ∧ changedEntry oldInfos p i = true := by
  unfold changedFiles
  rw [mem_sortStrings]
  constructor
  · intro h
    rcases List.mem_map.1 h with ⟨e, he, rfl⟩
    rcases List.mem_filter.1 he with ⟨hmem, hch⟩
    exact ⟨e.2, hmem, by simpa using hch⟩
  · rintro ⟨i, hmem, hch⟩
    exact List.mem_map.2 ⟨(p, i), List.mem_filter.2 ⟨hmem, by simpa using hch⟩, rfl⟩

theorem mem_of_lookupFM_some {m : FileMap} {p : String} {i : fileInfo}
    (h : lookupFM m p = some i) : (p, i) ∈ m := by
  unfold lookupFM at h
  rcases hf : m.find? (fun e => e.1 == p) with _ | e
  · rw [hf] at h; simp at h
  · rw [hf] at h
    rw [show (some e).map (·.2) = some e.2 from rfl, Option.some.injEq] at h
    have hm := List.mem_of_find?_eq_some hf
    have hp2 := List.find?_some hf
    simp only [beq_iff_eq] at hp2
    have he : e = (p, i) := Prod.ext hp2 h
    rw [← he]
    exact hm

theorem lookupFM_some_of_mem {m : FileMap} (hn : (m.map Prod.fst).Nodup)
    {p : String} {i : fileInfo} (hm : (p, i) ∈ m) : lookupFM m p = some i := by
  induction m with
  | nil => simp at hm
  | cons e m ih =>
    simp only [List.map_cons, List.nodup_cons] at hn
    rcases List.mem_cons.1 hm with rfl | hm
    · unfold lookupFM
      simp [List.find?_cons_of_pos]
    · have hne : e.1 ≠ p := by
        intro he
        exact hn.1 (by rw [he]; exact List.mem_map.2 ⟨(p, i), hm, rfl⟩)
      unfold lookupFM at *
      rw [List.find?_cons_of_neg _ (by simpa using hne)]
      exact ih hn.2 hm

/-- The loop-body test is true exactly under the spec condition. -/
theorem changedEntry_eq_true_iff {oldInfos : FileMap} {p : String} {i : fileInfo} :
    changedEntry oldInfos p i = true ↔
      (lookupFM oldInfos p = none ∨
        ∃ o, lookupFM oldInfos p = some o ∧ i.isLink = false ∧
          (o.sha1 = none ∨ i.sha1 = none ∨ o.sha1 ≠ i.sha1)) := by
  unfold changedEntry
  rcases ho : lookupFM oldInfos p with _ | o
  · simp
  · by_cases hl : i.isLink = true
    · simp [hl]
    · rcases hos : o.sha1 with _ | a
      · simp [hl, hos]
      · rcases his : i.sha1 with _ | b
        · simp [hl, hos, his]
        · simp [hl, hos, his, bne_iff_ne]

/-- C1: a path `P` is in the list returned by `changedFiles old new` iff `P`
is a key of `new` and either `P` is absent from `old`, or `new[P]` is not a
symlink and one of the fingerprints is absent or the fingerprints differ. -/
theorem claim_C1 (oldInfos newInfos : FileMap)
    (hnew : (newInfos.map Prod.fst).Nodup) (p : String) :
    p ∈ changedFiles oldInfos newInfos ↔
      ∃ i, lookupFM newInfos p = some i ∧
        (lookupFM oldInfos p = none ∨
          ∃ o, lookupFM oldInfos p = some o ∧ i.isLink = false ∧
            (o.sha1 = none ∨ i.sha1 = none ∨ o.sha1 ≠ i.sha1)) := by
  rw [mem_changedFiles]
  constructor
  · rintro ⟨i, hmem, hch⟩
    exact ⟨i, lookupFM_some_of_mem hnew hmem, changedEntry_eq_true_iff.1 hch⟩
  · rintro ⟨i, hlook, hcond⟩
    exact ⟨i, mem_of_lookupFM_some hlook, changedEntry_eq_true_iff.2 hcond⟩

/-- Witness for C1 at a concrete input. -/
theorem claim_C1_witness :
    "a" ∈ changedFiles [] [("a", fileInfo.mk (some [1]) false)] :=
  (claim_C1 [] [("a", fileInfo.mk (some [1]) false)] (by decide) "a").2
    ⟨fileInfo.mk (some [1]) false, by decide, Or.inl (by decide)⟩

/-- C2 counterexample: a path whose `new` entry is a symlink IS present in
the change list when it is absent from `old` — the `!ok` branch of the
`changedFiles` loop appends the path before the `isLink` test is reached. -/
theorem claim_C2_counterexample :
    lookupFM [("a", fileInfo.mk none true)] "a" = some (fileInfo.mk none true) ∧
    "a" ∈ changedFiles [] [("a", fileInfo.mk none true)] := by
  constructor
  · rfl
  · rw [mem_changedFiles]
    exact ⟨fileInfo.mk none true, by decide, by decide⟩

/-- C2 (amended): a path `P` with `new[P].isLink = true` is reported by the
diff engine exactly when `P` is absent from `old`; in particular a symlink
present in both maps is never reported, but a symlink new to the map is. -/
theorem claim_C2_amended (oldInfos newInfos : FileMap)
    (hnew : (newInfos.map Prod.fst).Nodup)
    (p : String) (i : fileInfo)
    (hlook : lookupFM newInfos p = some i) (hl : i.isLink = true) :
    p ∈ changedFiles oldInfos newInfos ↔ lookupFM oldInfos p = none := by
  rw [claim_C1 oldInfos newInfos hnew p]
  constructor
  · rintro ⟨j, hj, hcond⟩
    rw [hlook, Option.some.injEq] at hj
    subst hj
    rcases hcond with h | ⟨o, _, hfalse, _⟩
    · exact h
    · rw [hl] at hfalse; cases hfalse
  · intro h
    exact ⟨i, hlook, Or.inl h⟩

/-- Witness for the amended C2 at a concrete input: a symlink present in
both maps with differing ids is not reported. -/
theorem claim_C2_amended_witness :
    "a" ∉ changedFiles [("a", fileInfo.mk (some [1]) true)]
      [("a", fileInfo.mk (some [2]) true)] := by
  intro hmem
  have h := (claim_C2_amended [("a", fileInfo.mk (some [1]) true)]
    [("a", fileInfo.mk (some [2]) true)] (by decide) "a"
    (fileInfo.mk (some [2]) true) (by decide) rfl).1 hmem
  exact absurd h (by decide)

/-! ## `filepath.Clean` and `filepath.Join` (Go, unix rules)

Go's `filepath.Clean` is a lexical algorithm: split at `/`, drop empty and
`.` segments, let `..` pop a previous segment (except above the root of an
absolute path, and except over leading `..`s of a relative path); an empty
result becomes `.` (or `/` when rooted).  `filepath.Join` joins the
non-empty arguments with `/` and cleans the result. -/

/-- A "simple" path segment: nonempty, not `.`, not `..`, slash-free. -/
def simpleSeg (s : List Char) : Bool :=
  s != [] && s != ['.'] && s != ['.', '.'] && !s.contains '/'

/-- Process one segment of Go `filepath.Clean` against the stack of kept
segments (most recent first). -/
def cleanStep (abs : Bool) (stack : List (List Char)) (seg : List Char) :
    List (List Char) :=
  if seg == [] || seg == ['.'] then stack
  else if seg == ['.', '.'] then
    match stack with
    | [] => if abs then [] else [['.', '.']]
    | top :: rest => if top == ['.', '.'] then seg :: stack else rest
  else seg :: stack

/-- Go `filepath.Clean` (unix separators). -/
def goClean (p : String) : String :=
  match p.data with
  | [] => "."
  | c :: _ =>
    let abs := c == '/'
    let stack := (splitSlash p.data).foldl (cleanStep abs) []
    let body := joinSegs stack.reverse
    if abs then ⟨'/' :: body⟩
    else if body == [] then "." else ⟨body⟩

/-- Go `filepath.Join(a, b)`: empty components are skipped, the rest are
joined with `/` and cleaned. -/
def goJoin (a b : String) : String :=
  if a == "" && b == "" then ""
  else if a == "" then goClean b
  else if b == "" then goClean a
  else goClean (a ++ "/" ++ b)

/-- A clean relative path: every `/`-separated segment is simple. -/
def cleanRel (p : String) : Bool := (splitSlash p.data).all simpleSeg

/-! ### Structural lemmas about segments -/

theorem splitSlash_ne_nil (l : List Char) : splitSlash l ≠ [] := by
  cases l with
  | nil => simp [splitSlash]
  | cons c cs =>
    unfold splitSlash
    by_cases h : c == '/'
    · simp [h]
    · simp only [h, if_false]
      rcases splitSlash cs with _ | ⟨s, rest⟩ <;> simp

theorem splitSlash_cons (c : Char) (l : List Char) :
    splitSlash (c :: l) =
      if c == '/' then [] :: splitSlash l
      else
        match splitSlash l with
        | s :: rest => (c :: s) :: rest
        | [] => [[c]] := rfl

theorem splitSlash_append_slash (xs ys : List Char) :
    splitSlash (xs ++ '/' :: ys) = splitSlash xs ++ splitSlash ys := by
  induction xs with
  | nil => simp [splitSlash]
  | cons c cs ih =>
    rw [List.cons_append, splitSlash_cons, splitSlash_cons, ih]
    by_cases h : c == '/'
    · simp [h]
    · simp only [h, if_false]
      rcases hs : splitSlash cs with _ | ⟨s, rest⟩
      · exact absurd hs (splitSlash_ne_nil cs)
      · simp

theorem joinSegs_splitSlash (l : List Char) : joinSegs (splitSlash l) = l := by
  induction l with
  | nil => rfl
  | cons c cs ih =>
    by_cases h : c == '/'
    · rw [show c = '/' from by simpa using h]
      simp only [splitSlash]
      rcases hs : splitSlash cs with _ | ⟨s, rest⟩
      · exact absurd hs (splitSlash_ne_nil cs)
      · rw [hs] at ih
        simp only [joinSegs, List.nil_append]
        rw [ih]
    · simp only [splitSlash, h, if_false]
      rcases hs : splitSlash cs with _ | ⟨s, rest⟩
      · exact absurd hs (splitSlash_ne_nil cs)
      · rw [hs] at ih
        cases rest with
        | nil => simp only [joinSegs] at ih ⊢; rw [ih]
        | cons r rs => simp only [joinSegs] at ih ⊢; rw [List.cons_append, ih]

theorem joinSegs_append {xs ys : List (List Char)} (hx : xs ≠ []) (hy : ys ≠ []) :
    joinSegs (xs ++ ys) = joinSegs xs ++ '/' :: joinSegs ys := by
  induction xs with
  | nil => exact absurd rfl hx
  | cons s rest ih =>
    cases rest with
    | nil =>
      cases ys with
      | nil => exact absurd rfl hy
      | cons y yt => simp [joinSegs]
    | cons t ts =>
      have := ih (by simp)
      simp only [joinSegs, List.cons_append] at this ⊢
      simp only [List.append_eq] at this ⊢
      rw [this]
      simp

theorem foldl_cleanStep_simple {abs : Bool} {segs : List (List Char)}
    (h : ∀ s ∈ segs, simpleSeg s = true) (st : List (List Char)) :
    segs.foldl (cleanStep abs) st = segs.reverse ++ st := by
  induction segs generalizing st with
  | nil => simp
  | cons s rest ih =>
    have hs := h s (by simp)
    have hstep : cleanStep abs st s = s :: st := by
      unfold cleanStep
      simp only [simpleSeg, Bool.and_eq_true, bne_iff_ne, ne_eq,
        Bool.not_eq_true'] at hs
      rw [if_neg (by simp [hs.1.1.1, hs.1.1.2]), if_neg (by simp [hs.1.2])]
    rw [List.foldl_cons, hstep, ih (fun t ht => h t (by simp [ht]))]
    simp

theorem strData_append (a b : String) : (a ++ b).data = a.data ++ b.data := rfl

theorem goClean_cons (p : String) (c : Char) (d : List Char) (hd : p.data = c :: d) :
    goClean p =
      (if c == '/' then
        ⟨'/' :: joinSegs (((splitSlash (c :: d)).foldl (cleanStep (c == '/')) []).reverse)⟩
       else if joinSegs (((splitSlash (c :: d)).foldl (cleanStep (c == '/')) []).reverse) == []
       then "."
       else ⟨joinSegs (((splitSlash (c :: d)).foldl (cleanStep (c == '/')) []).reverse)⟩) := by
  unfold goClean
  rw [hd]

/-- Joining a clean relative path onto a cleaned base (other than `/` and
`.`) with an explicit separator is already clean. -/
theorem goClean_concat {ro p : String} (hro : goClean ro = ro)
    (hslash : ro ≠ "/") (hdot : ro ≠ ".") (hp : cleanRel p = true) :
    goClean (ro ++ "/" ++ p) = ro ++ "/" ++ p := by
  have hroNe : ro.data ≠ [] := by
    intro h
    apply hdot
    rw [← hro]
    unfold goClean
    rw [h]
  rcases hd : ro.data with _ | ⟨c, d⟩
  · exact absurd hd hroNe
  have hdata : (ro ++ "/" ++ p).data = c :: (d ++ '/' :: p.data) := by
    rw [strData_append, strData_append, hd]
    simp
  have hBsimple : ∀ s ∈ splitSlash p.data, simpleSeg s = true := by
    intro s hs
    exact List.all_eq_true.1 hp s hs
  have hBne : splitSlash p.data ≠ [] := splitSlash_ne_nil _
  have hroEq := goClean_cons ro c d hd
  rw [hro] at hroEq
  set stackRo := (splitSlash (c :: d)).foldl (cleanStep (c == '/')) [] with hstackRo
  have hsplit : splitSlash (c :: (d ++ '/' :: p.data)) =
      splitSlash (c :: d) ++ splitSlash p.data := by
    rw [show c :: (d ++ '/' :: p.data) = (c :: d) ++ '/' :: p.data from rfl]
    exact splitSlash_append_slash _ _
  have hfold : (splitSlash (c :: (d ++ '/' :: p.data))).foldl (cleanStep (c == '/')) [] =
      (splitSlash p.data).reverse ++ stackRo := by
    rw [hsplit, List.foldl_append, ← hstackRo]
    exact foldl_cleanStep_simple hBsimple stackRo
  by_cases habs : ((c == '/') = true)
  · rw [if_pos habs] at hroEq
    have hstackNe : stackRo ≠ [] := by
      intro hnil
      apply hslash
      rw [hroEq, hnil]
      rfl
    have hbody : joinSegs (((splitSlash p.data).reverse ++ stackRo).reverse) =
        joinSegs stackRo.reverse ++ '/' :: p.data := by
      rw [List.reverse_append, List.reverse_reverse,
        joinSegs_append (by simpa using hstackNe) hBne, joinSegs_splitSlash]
    rw [goClean_cons _ c (d ++ '/' :: p.data) hdata]
    rw [if_pos habs, hfold, hbody]
    have hdataRo : c :: d = '/' :: joinSegs stackRo.reverse := by
      rw [← hd]
      exact congrArg String.data hroEq
    injection hdataRo with hc hd2
    apply String.ext
    rw [hdata, hc, hd2]
  · rw [if_neg habs] at hroEq
    have hbodyRoNe : joinSegs stackRo.reverse ≠ [] := by
      intro hnil
      rw [hnil] at hroEq
      rw [if_pos (by decide)] at hroEq
      exact hdot hroEq
    rw [if_neg (by simpa using hbodyRoNe)] at hroEq
    have hstackNe : stackRo ≠ [] := by
      intro hnil
      apply hbodyRoNe
      rw [hnil]
      rfl
    have hbody : joinSegs (((splitSlash p.data).reverse ++ stackRo).reverse) =
        joinSegs stackRo.reverse ++ '/' :: p.data := by
      rw [List.reverse_append, List.reverse_reverse,
        joinSegs_append (by simpa using hstackNe) hBne, joinSegs_splitSlash]
    rw [goClean_cons _ c (d ++ '/' :: p.data) hdata]
    rw [if_neg habs, hfold, hbody]
    rw [if_neg (by simp)]
    have hdataRo : c :: d = joinSegs stackRo.reverse := by
      rw [← hd]
      exact congrArg String.data hroEq
    apply String.ext
    rw [hdata]
    rw [show c :: (d ++ '/' :: p.data) = (c :: d) ++ '/' :: p.data from rfl, hdataRo]

theorem lexLt_append_left (q a b : List Char) :
    lexLt (q ++ a) (q ++ b) = lexLt a b := by
  induction q with
  | nil => rfl
  | cons c cs ih => simp [lexLt, chLt_irrefl, ih]

theorem SLe_append (pre : String) {a b : String} (h : SLe a b) :
    SLe (pre ++ a) (pre ++ b) := by
  unfold SLe strLe strLt at *
  simp only [Bool.or_eq_true, beq_iff_eq] at h ⊢
  rcases h with h | rfl
  · left
    rw [strData_append, strData_append, lexLt_append_left]
    exact h
  · right; rfl

/-- C9 counterexample: the list returned by the diff engine is sorted, but
joining the entries onto the read-only root with `filepath.Join` does not
preserve sortedness when a key contains a `..` segment (`Join` cleans the
result lexically and can reorder): keys `a/../c < a/b` map to
`/ro/c > /ro/a/b`. -/
theorem claim_C9_counterexample :
    ¬ List.Sorted SLe ((changedFiles []
      [("a/../c", fileInfo.mk (some [1]) false),
       ("a/b", fileInfo.mk (some [1]) false)]).map (goJoin "/ro")) := by
  intro h
  rw [show (changedFiles []
      [("a/../c", fileInfo.mk (some [1]) false),
       ("a/b", fileInfo.mk (some [1]) false)]).map (goJoin "/ro")
    = ["/ro/c", "/ro/a/b"] from by decide] at h
  rw [List.sorted_cons] at h
  exact absurd (h.1 "/ro/a/b" (by simp)) (by decide)

/-- C9 (amended): the change list is always lexicographically sorted, and
joining each entry onto `ro` preserves sortedness provided `ro` is a
cleaned path other than `/` and `.` and every key of the new file map is a
clean relative path (no empty, `.` or `..` segments). -/
theorem claim_C9_amended (oldInfos newInfos : FileMap) (ro : String)
    (hro : goClean ro = ro) (hslash : ro ≠ "/") (hdot : ro ≠ ".")
    (hkeys : ∀ e ∈ newInfos, cleanRel e.1 = true) :
    List.Sorted SLe (changedFiles oldInfos newInfos) ∧
    List.Sorted SLe ((changedFiles oldInfos newInfos).map (goJoin ro)) := by
  have hsorted : List.Sorted SLe (changedFiles oldInfos newInfos) :=
    sorted_sortStrings _
  refine ⟨hsorted, ?_⟩
  have hrone : ro ≠ "" := by
    intro h0
    rw [h0] at hro
    exact absurd hro (by decide)
  have hJoinEq : ∀ x ∈ changedFiles oldInfos newInfos,
      goJoin ro x = ro ++ "/" ++ x := by
    intro x hx
    rcases mem_changedFiles.1 hx with ⟨i, hmem, _⟩
    have hxc : cleanRel x = true := hkeys (x, i) hmem
    have hxne : x ≠ "" := by
      intro hx0
      rw [hx0] at hxc
      exact absurd hxc (by decide)
    unfold goJoin
    rw [if_neg (by simp [hrone, hxne]), if_neg (by simp [hrone]),
      if_neg (by simp [hxne])]
    exact goClean_concat hro hslash hdot hxc
  rw [List.Sorted, List.pairwise_map]
  refine List.Pairwise.imp_of_mem ?_ hsorted
  intro a b ha hb hab
  rw [hJoinEq a ha, hJoinEq b hb]
  exact SLe_append (ro ++ "/") hab

/-- Witness for the amended C9 at a concrete input. -/
theorem claim_C9_witness :
    List.Sorted SLe (changedFiles []
      [("b/c", fileInfo.mk (some [1]) false), ("a", fileInfo.mk (some [2]) false)]) ∧
    List.Sorted SLe ((changedFiles []
      [("b/c", fileInfo.mk (some [1]) false),
       ("a", fileInfo.mk (some [2]) false)]).map (goJoin "/ro")) :=
  claim_C9_amended []
    [("b/c", fileInfo.mk (some [1]) false), ("a", fileInfo.mk (some [2]) false)]
    "/ro" (by decide) (by decide) (by decide) (by decide)

/-! ## Repo-tree model (`repoTree`, deref.go lines 150-299)

`type repoTree struct { children map[string]*repoTree; entries map[string]*fileInfo }`.
Both maps become association lists whose order models map iteration order. -/

inductive repoTree where
  | mk : List (String × repoTree) → List (String × fileInfo) → repoTree
deriving Inhabited

def repoTree.children : repoTree → List (String × repoTree)
  | .mk c _ => c

def repoTree.entries : repoTree → List (String × fileInfo)
  | .mk _ e => e

theorem sizeOf_child_lt {nm : String} {ch : repoTree}
    {children : List (String × repoTree)} {entries : List (String × fileInfo)}
    (h : (nm, ch) ∈ children) : sizeOf ch < sizeOf (repoTree.mk children entries) := by
  have h1 : sizeOf (nm, ch) < sizeOf children := List.sizeOf_lt_of_mem h
  have h2 : sizeOf ch < sizeOf (nm, ch) := by
    simp only [Prod.mk.sizeOf_spec]
    omega
  have h3 : sizeOf (repoTree.mk children entries) = 1 + sizeOf children + sizeOf entries := by
    simp [repoTree.mk.sizeOf_spec]
  omega

/-- Go map assignment `m[k] = v` on an association list: replace the binding
when the key is present, append otherwise. -/
def setAssoc {α : Type} (l : List (String × α)) (k : String) (v : α) :
    List (String × α) :=
  if l.any (fun e => e.1 == k) then
    l.map (fun e => if e.1 == k then (k, v) else e)
  else l ++ [(k, v)]

mutual

/-- `allChildren` (deref.go): all repositories below (and including) the
receiver, keyed by relative path: `r[""] = t`, and for each child `nm`,
`r[filepath.Join(nm, sub)]` for every `sub` of the child's own map. -/
def allChildren : repoTree → List (String × repoTree)
  | .mk children entries =>
    ("", repoTree.mk children entries) :: allChildrenList children

def allChildrenList : List (String × repoTree) → List (String × repoTree)
  | [] => []
  | (nm, ch) :: rest =>
    (allChildren ch).map (fun s => (goJoin nm s.1, s.2)) ++ allChildrenList rest

end

mutual

/-- `allFiles` (deref.go): all files below this repoTree, the entries of the
node itself under their own keys and descendants' files under
`filepath.Join(nm, sub)`. -/
def allFiles : repoTree → FileMap
  | .mk children entries => entries ++ allFilesList children

def allFilesList : List (String × repoTree) → FileMap
  | [] => []
  | (nm, ch) :: rest =>
    (allFiles ch).map (fun s => (goJoin nm s.1, s.2)) ++ allFilesList rest

end

/-! ## Tree builder from a manifest (deref.go lines 158-214)

`findParentRepo` walks to the first child whose key + "/" prefixes the
path and recurses on the stripped path; the caller then assigns a fresh
node under the returned parent at the residual key.  `insertRepo` performs
the walk and the assignment in one pass. -/

/-- Go `s[n:]` on a string. -/
def strDrop (s : String) (n : Nat) : String := ⟨s.data.drop n⟩

mutual

def insertRepo : repoTree → String → repoTree
  | .mk children entries, path =>
    match insertRepoList children path with
    | some children2 => .mk children2 entries
    | none => .mk (setAssoc children path (.mk [] [])) entries

def insertRepoList : List (String × repoTree) → String → Option (List (String × repoTree))
  | [], _ => none
  | (k, ch) :: rest, path =>
    if strHasPre (k ++ "/") path then
      some ((k, insertRepo ch (strDrop path (k.length + 1))) :: rest)
    else
      match insertRepoList rest path with
      | some rest2 => some ((k, ch) :: rest2)
      | none => none

end

/-- One `<project>` of the manifest, with the fields the builder uses. -/
structure Project where
  path : String
  copyfileDests : List String
  linkfileDests : List String
deriving DecidableEq

/-- `len(strings.Split(p.Path, "/"))`. -/
def pathDepth (p : String) : Nat := (splitSlash p.data).length

/-- The `byDepth` grouping: projects bucketed by path depth, shallowest
bucket first, manifest order preserved inside a bucket. -/
def byDepthOrder (projects : List Project) : List Project :=
  let maxD := projects.foldl (fun m p => max m (pathDepth p.path)) 0
  ((List.range (maxD + 1)).map (fun l =>
    projects.filter (fun p => pathDepth p.path == l))).flatten

/-- The pure part of `repoTreeFromManifest`: build the nested tree from the
parsed projects, then record every copyfile/linkfile destination as a root
entry with an absent fingerprint. -/
def buildManifestTree (projects : List Project) : repoTree :=
  let root1 := (byDepthOrder projects).foldl (fun t p => insertRepo t p.path)
    (repoTree.mk [] [])
  projects.foldl (fun t p =>
    let t2 := p.copyfileDests.foldl
      (fun u d => repoTree.mk u.children (setAssoc u.entries d (fileInfo.mk none false))) t
    p.linkfileDests.foldl
      (fun u d => repoTree.mk u.children (setAssoc u.entries d (fileInfo.mk none false))) t2)
    root1

/-! ## Tree builder from `.slothfs` metadata (deref.go lines 216-258) -/

/-- One entry of a `tree.json` document. -/
structure TreeEntry where
  name : String
  id : String
  target : Option String
deriving DecidableEq

inductive SlothErr where
  | manifestAbsent
  | treeJSONAbsent
  | badOid
deriving DecidableEq, Repr

/-- The metadata the read-only snapshot exposes: `manifest.xml` and
`tree.json` files keyed by their full path; `none` models a missing or
unparseable file (both fail the read in the source). -/
structure SlothEnv where
  readManifest : String → Option (List Project)
  readTreeJSON : String → Option (List TreeEntry)

def hexVal (c : Char) : Option Nat :=
  let n := c.toNat
  if 48 ≤ n && n ≤ 57 then some (n - 48)
  else if 97 ≤ n && n ≤ 102 then some (n - 87)
  else if 65 ≤ n && n ≤ 70 then some (n - 55)
  else none

def parseHex : List Char → Option (List Nat)
  | [] => some []
  | [_] => none
  | c1 :: c2 :: rest =>
    match hexVal c1, hexVal c2, parseHex rest with
    | some a, some b, some r => some ((16 * a + b) :: r)
    | _, _, _ => none

/-- `git.NewOid`: a 40-hex-digit string parses to 20 bytes, anything else
is an error. -/
def gitNewOid (s : String) : Option Oid :=
  if s.data.length == 40 then parseHex s.data else none

/-- `repoTreeFromManifest` (deref.go line 174): parse the manifest file,
then build the tree; a parse failure is fatal. -/
def repoTreeFromManifest (env : SlothEnv) (xmlFile : String) : Except SlothErr repoTree :=
  match env.readManifest xmlFile with
  | none => .error .manifestAbsent
  | some projects => .ok (buildManifestTree projects)

/-- The entry loop of `fillFromSlothFS`: each tree entry's hex id is
parsed (`git.NewOid`); a malformed id aborts with an error, keeping the
entries inserted so far; `isLink` is set when the entry carries a target. -/
def fillEntries : List (String × fileInfo) → List TreeEntry →
    List (String × fileInfo) × Option SlothErr
  | acc, [] => (acc, none)
  | acc, e :: rest =>
    match gitNewOid e.id with
    | none => (acc, some .badOid)
    | some oid =>
      fillEntries (setAssoc acc e.name (fileInfo.mk (some oid) e.target.isSome)) rest

mutual

/-- `fillFromSlothFS` (deref.go lines 216-246).  Reads this node's
`tree.json`, fills the entries, then recurses into every child — the
source discards the recursive calls' error results (`v.fillFromSlothFS(…)`
on line 242 is not checked), so only the receiver's own read, parse and id
errors are reported. -/
def fillFromSlothFS (env : SlothEnv) : repoTree → String → repoTree × Option SlothErr
  | .mk children entries, dir =>
    match env.readTreeJSON (goJoin dir ".slothfs/tree.json") with
    | none => (.mk children entries, some .treeJSONAbsent)
    | some tes =>
      match fillEntries entries tes with
      | (entries2, some err) => (.mk children entries2, some err)
      | (entries2, none) => (.mk (fillChildren env children dir) entries2, none)

def fillChildren (env : SlothEnv) : List (String × repoTree) → String → List (String × repoTree)
  | [], _ => []
  | (k, ch) :: rest, dir =>
    (k, (fillFromSlothFS env ch (goJoin dir k)).1) :: fillChildren env rest dir

end

/-- `repoTreeFromSlothFS` (deref.go lines 248-258). -/
def repoTreeFromSlothFS (env : SlothEnv) (dir : String) : Except SlothErr repoTree :=
  match repoTreeFromManifest env (goJoin dir ".slothfs/manifest.xml") with
  | .error e => .error e
  | .ok root =>
    match fillFromSlothFS env root dir with
    | (_, some e) => .error e
    | (t, none) => .ok t

/-- A snapshot whose manifest declares one project `a`, whose root
`tree.json` parses to an empty entry list, and whose nested repository
`a` has no readable `tree.json`. -/
def envC5 : SlothEnv where
  readManifest := fun f =>
    if f == "/m/ws/.slothfs/manifest.xml" then some [⟨"a", [], []⟩] else none
  readTreeJSON := fun f =>
    if f == "/m/ws/.slothfs/tree.json" then some [] else none

/-- C5: building the RepoTree succeeds (`.ok`) although the nested
repository `a` has a missing `tree.json` — its fill reports
`treeJSONAbsent` (second conjunct) but `fillFromSlothFS` drops the error
of every recursive child call (deref.go line 242), so the failure is NOT
fatal below the workspace root, contradicting the claim. -/
theorem claim_C5 :
    repoTreeFromSlothFS envC5 "/m/ws" =
      .ok (repoTree.mk [("a", repoTree.mk [] [])] []) ∧
    (fillFromSlothFS envC5 (repoTree.mk [] []) "/m/ws/a").2 =
      some SlothErr.treeJSONAbsent := by
  constructor
  · rfl
  · rfl

/-! ## Pass 1 classification of `createTreeLinks` (deref.go lines 384-424)

The inner loop ranges over the keys of `rw.allChildren()` — a Go map, so
in arbitrary order, modelled by the order of the candidate list.  It
breaks on the first key equal to `nm` (recurse) or strictly inside `nm`
(checkout found); `""` and keys outside `nm` are skipped.  `filepath.Rel(nm, k)`
not starting with ".." is, for cleaned relative paths, exactly
"`k` is strictly under `nm`", i.e. `nm ++ "/"` prefixes `k`. -/

inductive LinkDecision where
  | recurse
  | partialCover
  | fullLink
deriving DecidableEq, Repr

/-- The classification the `outer` loop computes for one child `nm` of the
read-only tree, given the candidate keys in iteration order: `recurse`
when the loop broke with `foundRecurse`, `partialCover` when it broke with
`foundCheckout` (the switch then does nothing), `fullLink` when the loop
ran out (no checkout below `nm`). -/
def classifyChild (nm : String) : List String → LinkDecision
  | [] => .fullLink
  | k :: rest =>
    if k == "" then classifyChild nm rest
    else if nm == k then .recurse
    else if !(strHasPre (nm ++ "/") k) then classifyChild nm rest
    else .partialCover

/-- C4 counterexample: with the rw descendants `{a/nested, a}` the set
contains `a` itself, yet when iteration meets the strict descendant
`a/nested` first the loop breaks with `foundCheckout` and the planner does
NOT recurse — the claimed precedence of "recurse" over partial-coverage
skipping fails for this iteration order. -/
theorem claim_C4_counterexample :
    "a" ∈ ["a/nested", "a"] ∧
    classifyChild "a" ["a/nested", "a"] = LinkDecision.partialCover := by
  constructor
  · simp
  · rfl

/-- C4 (amended): when the candidate set contains `K` itself, the planner
never chooses a full-tree symlink (recurse or partial-coverage always
wins over it), and it is guaranteed to recurse when no candidate lies
strictly inside `K`; but when a strict descendant of `K` is also present,
the outcome (`recurse` vs `partialCover`) depends on which of the two the
map iteration meets first. -/
theorem claim_C4_amended (nm : String) (cands : List String)
    (hnm : nm ≠ "") (hmem : nm ∈ cands) :
    classifyChild nm cands ≠ LinkDecision.fullLink ∧
    ((∀ k ∈ cands, strHasPre (nm ++ "/") k = false) →
      classifyChild nm cands = LinkDecision.recurse) := by
  induction cands with
  | nil => simp at hmem
  | cons k rest ih =>
    rcases List.mem_cons.1 hmem with rfl | hmem2
    · rw [classifyChild]
      rw [if_neg (by simpa using hnm), if_pos (beq_self_eq_true nm)]
      exact ⟨by simp, fun _ => rfl⟩
    · rw [classifyChild]
      by_cases hk0 : k == ""
      · rw [if_pos hk0]
        exact ⟨(ih hmem2).1, fun hall =>
          (ih hmem2).2 (fun x hx => hall x (List.mem_cons_of_mem _ hx))⟩
      · rw [if_neg hk0]
        by_cases hkeq : nm == k
        · rw [if_pos hkeq]
          exact ⟨by simp, fun _ => rfl⟩
        · rw [if_neg hkeq]
          by_cases hunder : strHasPre (nm ++ "/") k
          · rw [if_neg (by simp [hunder])]
            exact ⟨by simp, fun hall => absurd (hall k (by simp)) (by simp [hunder])⟩
          · rw [if_pos (by simp [hunder])]
            exact ⟨(ih hmem2).1, fun hall =>
              (ih hmem2).2 (fun x hx => hall x (List.mem_cons_of_mem _ hx))⟩

/-- Witness for the amended C4 at a concrete input. -/
theorem claim_C4_witness :
    classifyChild "a" ["", "b", "a"] ≠ LinkDecision.fullLink ∧
    ((∀ k ∈ ["", "b", "a"], strHasPre ("a" ++ "/") k = false) →
      classifyChild "a" ["", "b", "a"] = LinkDecision.recurse) :=
  claim_C4_amended "a" ["", "b", "a"] (by decide) (by decide)

/-! ## Filesystem model

Paths are segment lists (a faithful rendering of cleaned Go path strings);
an `FS` is an association list from paths to nodes.  Symlink targets are
kept as the raw strings the code stores and compares (`clearLinks` matches
them with a *string* prefix test).  Directory walks visit entries in
per-directory sorted name order, which on segment paths is the sorted
order of the path lists. -/

abbrev FPath := List String

inductive FNode where
  | file (tag : Nat)
  | dir
  | link (target : String)
deriving DecidableEq, Repr

abbrev FS := List (FPath × FNode)

def lookupFS (fs : FS) (p : FPath) : Option FNode :=
  (fs.find? (fun e => e.1 == p)).map (·.2)

def eraseFS (fs : FS) (p : FPath) : FS := fs.filter (fun e => !(e.1 == p))

/-- Segment list of a cleaned path string (empty segments from a leading
`/` are dropped, so absolute and relative strings both become their
segment sequences). -/
def strToPath (s : String) : FPath :=
  (splitSlash s.data).filterMap (fun seg => if seg == [] then none else some ⟨seg⟩)

/-- `anc` is a strict ancestor of `p`. -/
def isStrictUnder (anc p : FPath) : Bool :=
  anc.isPrefixOf p && decide (anc.length < p.length)

/-- Lexicographic order on segment paths; a directory walk with sorted
per-directory listings visits paths exactly in this order. -/
def pathLt : FPath → FPath → Bool
  | [], [] => false
  | [], _ :: _ => true
  | _ :: _, [] => false
  | a :: as, b :: bs => strLt a b || (a == b && pathLt as bs)

def pathLe (a b : FPath) : Bool := pathLt a b || a == b

def insertBy {α : Type} (le : α → α → Bool) (a : α) : List α → List α
  | [] => [a]
  | b :: l => if le a b then a :: b :: l else b :: insertBy le a l

def sortBy {α : Type} (le : α → α → Bool) (l : List α) : List α :=
  l.foldr (insertBy le) []

theorem insertBy_perm {α : Type} (le : α → α → Bool) (a : α) (l : List α) :
    (insertBy le a l).Perm (a :: l) := by
  induction l with
  | nil => simp [insertBy]
  | cons b l ih =>
    by_cases h : le a b = true
    · rw [insertBy, if_pos h]
    · rw [insertBy, if_neg h]
      exact ((ih.cons b).trans (List.Perm.swap a b l))

theorem sortBy_perm {α : Type} (le : α → α → Bool) (l : List α) :
    (sortBy le l).Perm l := by
  induction l with
  | nil => simp [sortBy]
  | cons b l ih =>
    exact (insertBy_perm le b (sortBy le l)).trans (ih.cons b)

/-- The paths `filepath.Walk dir` visits below `dir`, in visit order. -/
def walkOrder (fs : FS) (dir : FPath) : List FPath :=
  sortBy pathLe ((fs.map (·.1)).filter (fun p => isStrictUnder dir p))

/-! ## Link cleaner: `clearLinks` (deref.go lines 447-489) -/

/-- The walk callback of `clearLinks` on one visited path: a symlink whose
target begins with the (cleaned) mount is recorded (last wins) and
removed; every directory is collected. -/
def clearStep (mountC : String) (st : FS × String × List FPath) (p : FPath) :
    FS × String × List FPath :=
  match lookupFS st.1 p with
  | some (.link t) =>
    if strHasPre mountC t then (eraseFS st.1 p, t, st.2.2) else st
  | some .dir => (st.1, st.2.1, st.2.2 ++ [p])
  | _ => st

/-- The post-walk pass: attempt `os.Remove` on each collected directory,
deepest first; removal succeeds only on an empty directory ("not empty"
errors are ignored). -/
def removeEmptyDirs (fs : FS) (dirs : List FPath) : FS :=
  dirs.foldl (fun cur d =>
    if (cur.filter (fun e => isStrictUnder d e.1)).isEmpty then eraseFS cur d
    else cur) fs

/-- The workspace-name computation at the end of `clearLinks`:
`strings.TrimPrefix(prefix, mount+"/")` then truncate at the first `/`. -/
def wsNameOf (mountC pfx : String) : String :=
  ⟨cutSlash (trimPre (mountC ++ "/").data pfx.data)⟩

/-- `clearLinks(mount, dir)`: clean the mount, walk `dir`, remove the
symlinks pointing into the mount (recording the last such target),
then remove now-empty directories deepest first; return the new state and
the prior workspace name. -/
def clearLinksFS (mount : String) (dir : FPath) (fs : FS) : FS × String :=
  let mountC := goClean mount
  let st := (walkOrder fs dir).foldl (clearStep mountC) (fs, "", [])
  (removeEmptyDirs st.1 st.2.2.reverse, wsNameOf mountC st.2.1)

/-! ### C6: the returned workspace name -/

/-- The targets of the mount-matching symlinks below `dir`, in walk
order. -/
def matchingTargets (mountC : String) (fs : FS) (dir : FPath) : List String :=
  (walkOrder fs dir).filterMap (fun p =>
    match lookupFS fs p with
    | some (.link t) => if strHasPre mountC t then some t else none
    | _ => none)

theorem findKey_erase_ne {fs : FS} {p q : FPath} (h : ¬(q = p)) :
    (eraseFS fs p).find? (fun e => e.1 == q) = fs.find? (fun e => e.1 == q) := by
  induction fs with
  | nil => rfl
  | cons e fs ih =>
    unfold eraseFS at *
    rw [List.filter_cons]
    by_cases hep : (e.1 == p) = true
    · rw [if_neg (by simp [hep])]
      rw [List.find?_cons_of_neg _ (by
        simp only [beq_iff_eq] at hep ⊢
        rw [hep]
        exact fun hq => h hq.symm)]
      exact ih
    · rw [if_pos (by simp [hep])]
      by_cases heq : (e.1 == q) = true
      · simp only [List.find?_cons, heq]
      · have heq2 : (e.1 == q) = false := by simpa using heq
        simp only [List.find?_cons, heq2]
        exact ih

theorem lookupFS_erase_ne {fs : FS} {p q : FPath} (h : ¬(q = p)) :
    lookupFS (eraseFS fs p) q = lookupFS fs q := by
  unfold lookupFS
  rw [findKey_erase_ne h]

theorem foldl_keepLast {α : Type} (l : List α) (a : α) :
    l.foldl (fun _ t => t) a = match l.getLast? with | none => a | some t => t := by
  induction l generalizing a with
  | nil => rfl
  | cons b l ih =>
    rw [List.foldl_cons, ih]
    cases l with
    | nil => rfl
    | cons c m =>
      rw [List.getLast?_cons_cons]
      have hne : (c :: m) ≠ ([] : List α) := by simp
      rcases Option.isSome_iff_exists.1 (List.getLast?_isSome.2 hne) with ⟨t, ht⟩
      rw [ht]

/-- The recorded prefix after the walk is the last matching target (over
the original state), provided the walk visits each path once and the
state simulated agrees with the original on the unvisited paths. -/
theorem clearStep_fold_pfx (mountC : String) (fs : FS) :
    ∀ (order : List FPath), order.Nodup →
    ∀ (cur : FS) (pfx0 : String) (dirs0 : List FPath),
    (∀ p ∈ order, lookupFS cur p = lookupFS fs p) →
    (order.foldl (clearStep mountC) (cur, pfx0, dirs0)).2.1 =
      (order.filterMap (fun p =>
        match lookupFS fs p with
        | some (.link t) => if strHasPre mountC t then some t else none
        | _ => none)).foldl (fun _ t => t) pfx0 := by
  intro order
  induction order with
  | nil => intro _ cur pfx0 dirs0 _; rfl
  | cons p rest ih =>
    intro hnd cur pfx0 dirs0 hsub
    have hp := hsub p (by simp)
    rw [List.nodup_cons] at hnd
    rw [List.foldl_cons]
    rcases hfp : lookupFS fs p with _ | n
    · have hstep : clearStep mountC (cur, pfx0, dirs0) p = (cur, pfx0, dirs0) := by
        unfold clearStep
        rw [hp, hfp]
      rw [hstep, show (List.filterMap (fun p =>
          match lookupFS fs p with
          | some (FNode.link t) => if strHasPre mountC t then some t else none
          | _ => none) (p :: rest)) = List.filterMap (fun p =>
            match lookupFS fs p with
            | some (FNode.link t) => if strHasPre mountC t then some t else none
            | _ => none) rest from by
        simp [List.filterMap_cons, hfp]]
      exact ih hnd.2 cur pfx0 dirs0 (fun q hq => hsub q (by simp [hq]))
    · cases n with
      | file tag =>
        have hstep : clearStep mountC (cur, pfx0, dirs0) p = (cur, pfx0, dirs0) := by
          unfold clearStep
          rw [hp, hfp]
        rw [hstep, show (List.filterMap (fun p =>
            match lookupFS fs p with
            | some (FNode.link t) => if strHasPre mountC t then some t else none
            | _ => none) (p :: rest)) = List.filterMap (fun p =>
            match lookupFS fs p with
            | some (FNode.link t) => if strHasPre mountC t then some t else none
            | _ => none) rest from by
          simp [List.filterMap_cons, hfp]]
        exact ih hnd.2 cur pfx0 dirs0 (fun q hq => hsub q (by simp [hq]))
      | dir =>
        have hstep : clearStep mountC (cur, pfx0, dirs0) p = (cur, pfx0, dirs0 ++ [p]) := by
          unfold clearStep
          rw [hp, hfp]
        rw [hstep, show (List.filterMap (fun p =>
            match lookupFS fs p with
            | some (FNode.link t) => if strHasPre mountC t then some t else none
            | _ => none) (p :: rest)) = List.filterMap (fun p =>
            match lookupFS fs p with
            | some (FNode.link t) => if strHasPre mountC t then some t else none
            | _ => none) rest from by
          simp [List.filterMap_cons, hfp]]
        exact ih hnd.2 cur pfx0 (dirs0 ++ [p]) (fun q hq => hsub q (by simp [hq]))
      | link t =>
        by_cases hm : strHasPre mountC t = true
        · have hstep : clearStep mountC (cur, pfx0, dirs0) p = (eraseFS cur p, t, dirs0) := by
            unfold clearStep
            rw [hp, hfp]
            simp [hm]
          rw [hstep, show (List.filterMap (fun p =>
              match lookupFS fs p with
              | some (FNode.link t) => if strHasPre mountC t then some t else none
              | _ => none) (p :: rest)) = t :: List.filterMap (fun p =>
            match lookupFS fs p with
            | some (FNode.link t) => if strHasPre mountC t then some t else none
            | _ => none) rest from by
            simp [List.filterMap_cons, hfp, hm], List.foldl_cons]
          exact ih hnd.2 (eraseFS cur p) t dirs0 (fun q hq => by
            rw [lookupFS_erase_ne (fun hqp => hnd.1 (by rw [← hqp]; exact hq))]
            exact hsub q (by simp [hq]))
        · have hstep : clearStep mountC (cur, pfx0, dirs0) p = (cur, pfx0, dirs0) := by
            unfold clearStep
            rw [hp, hfp]
            simp [hm]
          rw [hstep, show (List.filterMap (fun p =>
              match lookupFS fs p with
              | some (FNode.link t) => if strHasPre mountC t then some t else none
              | _ => none) (p :: rest)) = List.filterMap (fun p =>
            match lookupFS fs p with
            | some (FNode.link t) => if strHasPre mountC t then some t else none
            | _ => none) rest from by
            simp [List.filterMap_cons, hfp, hm]]
          exact ih hnd.2 cur pfx0 dirs0 (fun q hq => hsub q (by simp [hq]))

theorem wsNameOf_empty (mountC : String) : wsNameOf mountC "" = "" := by
  unfold wsNameOf trimPre
  have h : hasPre (mountC ++ "/").data ("" : String).data = false := by
    rw [strData_append]
    rcases mountC.data with _ | ⟨c, cs⟩
    · rfl
    · rfl
  rw [h]
  rfl

/-- C6: `clearLinks` returns the workspace name computed from the LAST
symlink (in walk order) whose target begins with the cleaned mount — that
target with the `mount + "/"` prefix stripped and truncated at the first
following `/` — and the empty string when no symlink under `dir` points
into the mount. -/
theorem claim_C6 (fs : FS) (mount : String) (dir : FPath)
    (hnodup : (fs.map Prod.fst).Nodup) :
    (clearLinksFS mount dir fs).2 =
      match (matchingTargets (goClean mount) fs dir).getLast? with
      | none => ""
      | some t => wsNameOf (goClean mount) t := by
  have hnd : (walkOrder fs dir).Nodup := by
    have hf : ((fs.map (·.1)).filter (fun p => isStrictUnder dir p)).Nodup :=
      List.Nodup.filter _ hnodup
    exact ((sortBy_perm pathLe _).nodup_iff).2 hf
  have hmain : (clearLinksFS mount dir fs).2 =
      wsNameOf (goClean mount)
        ((walkOrder fs dir).foldl (clearStep (goClean mount)) (fs, "", [])).2.1 := rfl
  unfold matchingTargets
  rw [hmain, clearStep_fold_pfx (goClean mount) fs (walkOrder fs dir) hnd fs "" []
    (fun _ _ => rfl)]
  rw [foldl_keepLast]
  rcases hlast : ((walkOrder fs dir).filterMap (fun p =>
      match lookupFS fs p with
      | some (.link t) => if strHasPre (goClean mount) t then some t else none
      | _ => none)).getLast? with _ | t
  · exact wsNameOf_empty _
  · rfl

/-- Witness for C6 at a concrete input. -/
theorem claim_C6_witness :
    (clearLinksFS "/m" ["rw"]
      [(["rw"], FNode.dir), (["rw", "a"], FNode.link "/m/ws/a"),
       (["rw", "b"], FNode.link "other")]).2 =
      match (matchingTargets (goClean "/m")
        [(["rw"], FNode.dir), (["rw", "a"], FNode.link "/m/ws/a"),
         (["rw", "b"], FNode.link "other")] ["rw"]).getLast? with
      | none => ""
      | some t => wsNameOf (goClean "/m") t :=
  claim_C6 [(["rw"], FNode.dir), (["rw", "a"], FNode.link "/m/ws/a"),
    (["rw", "b"], FNode.link "other")] "/m" ["rw"] (by decide)

/-! ## Path resolution and creation primitives

`os.Stat` follows symlinks; `os.Symlink` fails when the new name already
exists; `os.MkdirAll` creates every missing directory of a chain and fails
on a non-directory component.  Symlink targets created by this code are
absolute cleaned strings, and resolution re-parses them into segments.
`fuel` bounds the number of resolution steps (a loop of symlinks is an
`ELOOP` error, i.e. `none`). -/

def resolvePath (fs : FS) : Nat → FPath → FPath → Option FPath
  | 0, _, _ => none
  | _ + 1, acc, [] => some acc
  | fuel + 1, acc, seg :: rest =>
    match lookupFS fs (acc ++ [seg]) with
    | some .dir => resolvePath fs fuel (acc ++ [seg]) rest
    | some (.link t) => resolvePath fs fuel [] (strToPath t ++ rest)
    | some (.file _) => if rest.isEmpty then some (acc ++ [seg]) else none
    | none => none

/-- `os.Stat`: resolve, then read the node at the resolved path. -/
def statFS (fs : FS) (fuel : Nat) (p : FPath) : Option FNode :=
  match resolvePath fs fuel [] p with
  | none => none
  | some r => lookupFS fs r

def mkdirAllGo (fs : FS) (fuel : Nat) : FPath → List String → Option FS
  | _, [] => some fs
  | acc, seg :: rest =>
    match lookupFS fs (acc ++ [seg]) with
    | some .dir => mkdirAllGo fs fuel (acc ++ [seg]) rest
    | some (.link t) =>
      match resolvePath fs fuel [] (strToPath t) with
      | some r =>
        match lookupFS fs r with
        | some .dir => mkdirAllGo fs fuel r rest
        | _ => none
      | none => none
    | some (.file _) => none
    | none => mkdirAllGo (fs ++ [(acc ++ [seg], FNode.dir)]) fuel (acc ++ [seg]) rest

/-- `os.MkdirAll(p, 0755)`. -/
def mkdirAll (fs : FS) (fuel : Nat) (p : FPath) : Option FS := mkdirAllGo fs fuel [] p

/-- `os.Symlink(target, dest)`: fails when `dest` already exists. -/
def symlinkFS (fs : FS) (fuel : Nat) (target : String) (dest : FPath) : Option FS :=
  match dest.getLast?, resolvePath fs fuel [] dest.dropLast with
  | some last, some r =>
    match lookupFS fs (r ++ [last]) with
    | some _ => none
    | none => some (fs ++ [(r ++ [last], FNode.link target)])
  | _, _ => none

/-- Go `filepath.Dir`: everything up to and including the last `/`,
cleaned; `.` when there is no slash. -/
def takeToLastSlash : List Char → Option (List Char)
  | [] => none
  | c :: cs =>
    match takeToLastSlash cs with
    | some r => some (c :: r)
    | none => if c == '/' then some ['/'] else none

def goDir (p : String) : String :=
  match takeToLastSlash p.data with
  | none => "."
  | some pre => goClean ⟨pre⟩

/-! ## Link planner (deref.go lines 360-444) -/

/-- `symlinkRepo(name, child, roRoot, rwRoot)`: skip when `rwRoot/name`
stats as a directory, else per-file links `rwRoot/name/e → roRoot/name/e`
for every entry of the child, creating parent directories first. -/
def symlinkRepo (fuel : Nat) (name : String) (child : repoTree)
    (roRoot rwRoot : String) (fs : FS) : Option FS :=
  match statFS fs fuel (strToPath (goJoin rwRoot name)) with
  | some .dir => some fs
  | _ =>
    child.entries.foldlM (fun cur e =>
      match mkdirAll cur fuel (strToPath (goJoin (goJoin rwRoot name) e.1)).dropLast with
      | none => none
      | some cur2 =>
        symlinkFS cur2 fuel (goJoin (goJoin roRoot name) e.1)
          (strToPath (goJoin (goJoin rwRoot name) e.1))) fs

mutual

/-- `createTreeLinks(ro, rw, roRoot, rwRoot)` (deref.go lines 381-427):
for each child of `ro`, classify against the keys of `rw.allChildren()`
and recurse / do nothing / whole-tree symlink accordingly. -/
def createTreeLinks (fuel : Nat) : repoTree → repoTree → String → String → FS → Option FS
  | .mk roCh _, rw, roRoot, rwRoot, fs =>
    createTreeLinksList fuel roCh ((allChildren rw).map (·.1)) rw roRoot rwRoot fs

def createTreeLinksList (fuel : Nat) :
    List (String × repoTree) → List String → repoTree → String → String → FS → Option FS
  | [], _, _, _, _, fs => some fs
  | (nm, ch) :: rest, allRW, rw, roRoot, rwRoot, fs =>
    match classifyChild nm allRW with
    | .recurse =>
      match rw.children.find? (fun e => e.1 == nm) with
      | some e =>
        match createTreeLinks fuel ch e.2 (goJoin roRoot nm) (goJoin rwRoot nm) fs with
        | some fs2 => createTreeLinksList fuel rest allRW rw roRoot rwRoot fs2
        | none => none
      | none => none
    | .partialCover => createTreeLinksList fuel rest allRW rw roRoot rwRoot fs
    | .fullLink =>
      match mkdirAll fs fuel (strToPath (goJoin rwRoot nm)).dropLast with
      | none => none
      | some fs2 =>
        match symlinkFS fs2 fuel (goJoin roRoot nm) (strToPath (goJoin rwRoot nm)) with
        | none => none
        | some fs3 => createTreeLinksList fuel rest allRW rw roRoot rwRoot fs3

end

/-- `createLinks(ro, rw, roRoot, rwRoot)` (deref.go lines 430-444):
pass 1 (`createTreeLinks`), then `symlinkRepo` for every descendant
repository of `ro` whose path is not a repository of `rw`. -/
def createLinks (fuel : Nat) (ro rw : repoTree) (roRoot rwRoot : String)
    (fs : FS) : Option FS :=
  match createTreeLinks fuel ro rw roRoot rwRoot fs with
  | none => none
  | some fs1 =>
    (allChildren ro).foldlM (fun cur e =>
      if ((allChildren rw).map (·.1)).contains e.1 then some cur
      else symlinkRepo fuel e.1 e.2 roRoot rwRoot cur) fs1

/-! ## Live-directory tree builder (deref.go lines 301-357) -/

/-- `isRepoDir`: the directory stats a `.git` or `.slothfs` directory
child. -/
def isRepoDirFS (fs : FS) (fuel : Nat) (p : FPath) : Bool :=
  (match statFS fs fuel (p ++ [".git"]) with
   | some .dir => true
   | _ => false) ||
  (match statFS fs fuel (p ++ [".slothfs"]) with
   | some .dir => true
   | _ => false)

/-- `ioutil.ReadDir`: the direct children of `p`, with lstat-style nodes,
sorted by name. -/
def readDirFS (fs : FS) (p : FPath) : List (String × FNode) :=
  sortBy (fun a b => strLe a.1 b.1) (fs.filterMap (fun e =>
    if e.1.dropLast == p && e.1.length == p.length + 1 then
      match e.1.getLast? with
      | some nm => some (nm, e.2)
      | none => none
    else none))

/-- `(parent *repoTree).fill(repoRoot, dir)` (deref.go lines 311-357),
returning the children and entries the walk appends to the receiver.
Skips `.git`/`.slothfs` directories and a top-level `out`; a directory
that stats as a repository becomes a child node (filled from scratch),
other directories are walked into the same node; everything else (files,
symlinks — `ReadDir` does not follow links) becomes an entry with an
unresolved fingerprint.  The `Nat` argument bounds the directory depth
(the model is total; the Go walk recurses as deep as the tree goes). -/
def fillGo (fs : FS) (statFuel : Nat) :
    Nat → FPath → String → List (String × repoTree) × List (String × fileInfo)
  | 0, _, _ => ([], [])
  | fuel + 1, repoRoot, dirRel =>
    (readDirFS fs (repoRoot ++ strToPath dirRel)).foldl (fun acc e =>
      if e.2 == FNode.dir && (e.1 == ".git" || e.1 == ".slothfs") then acc
      else if e.2 == FNode.dir && e.1 == "out" && dirRel == "" then acc
      else
        if e.2 == FNode.dir then
          if isRepoDirFS fs statFuel (repoRoot ++ strToPath (goJoin dirRel e.1)) then
            (acc.1 ++ [(goJoin dirRel e.1,
              repoTree.mk (fillGo fs statFuel fuel (repoRoot ++ strToPath (goJoin dirRel e.1)) "").1
                (fillGo fs statFuel fuel (repoRoot ++ strToPath (goJoin dirRel e.1)) "").2)], acc.2)
          else
            (acc.1 ++ (fillGo fs statFuel fuel repoRoot (goJoin dirRel e.1)).1,
             acc.2 ++ (fillGo fs statFuel fuel repoRoot (goJoin dirRel e.1)).2)
        else (acc.1, acc.2 ++ [(goJoin dirRel e.1, fileInfo.mk none false)])) ([], [])

/-- `newRepoTree(dir)`. -/
def newRepoTreeFS (fs : FS) (fuel : Nat) (dir : String) : repoTree :=
  repoTree.mk (fillGo fs fuel fuel (strToPath dir) "").1
    (fillGo fs fuel fuel (strToPath dir) "").2

/-! ## Checkout orchestrator (deref.go lines 521-580) -/

inductive CkErr where
  | sloth (e : SlothErr)
  | linkErr
deriving DecidableEq, Repr

/-- `Checkout(ro, rw)`: clean `ro`; clear old links under `rw` against
`mount = Dir(ro)` and learn the prior workspace name; build the prior
snapshot tree (empty file map on a cold checkout), the writable tree and
the new read-only tree; create links; diff prior vs new flattened maps
and return the changed paths joined onto `ro`. -/
def Checkout (env : SlothEnv) (fuel : Nat) (ro0 rw : String) (fs : FS) :
    Except CkErr (FS × List String) :=
  let ro := goClean ro0
  let mount := goDir ro
  let cleaned := clearLinksFS mount (strToPath rw) fs
  match (if cleaned.2 == "" then Except.ok ([] : FileMap)
         else match repoTreeFromSlothFS env (goJoin mount cleaned.2) with
              | .error e => .error (CkErr.sloth e)
              | .ok t => .ok (allFiles t)) with
  | .error e => .error e
  | .ok oldInfos =>
    match repoTreeFromSlothFS env ro with
    | .error e => .error (.sloth e)
    | .ok roTree =>
      match createLinks fuel roTree (newRepoTreeFS cleaned.1 fuel rw) ro rw cleaned.1 with
      | none => .error .linkErr
      | some fs2 =>
        .ok (fs2, (changedFiles oldInfos (allFiles roTree)).map (fun p => goJoin ro p))

/-! ## Frame lemmas: what a Checkout may touch

`clearLinks` removes only symlinks pointing into the mount and directories
that end up empty (cascading, deepest first); link creation only appends
entries at fresh keys.  `removableFS` captures, against the original
state, the directories the cleanup can empty: every strict descendant is
a mount-matching symlink or such a directory. -/

/-- Is this node a symlink whose target begins with the (cleaned) mount? -/
def matchLink (mountC : String) : FNode → Bool
  | FNode.link t => strHasPre mountC t
  | _ => false

/-- `removableFS mountC dirP fs fuel q n`: below-`dirP` object `(q, n)` of
`fs` is removed by the cleanup provided `fuel` exceeds the directory
depth: a matching symlink, or a directory all of whose strict descendants
are removable. -/
def removableFS (mountC : String) (dirP : FPath) (fs : FS) :
    Nat → FPath → FNode → Bool
  | 0, p, n => matchLink mountC n && isStrictUnder dirP p
  | fuel + 1, p, n =>
    (match n with
     | FNode.link t => strHasPre mountC t
     | FNode.dir => (fs.filter (fun e => isStrictUnder p e.1)).all
         (fun e => removableFS mountC dirP fs fuel e.1 e.2)
     | FNode.file _ => false) && isStrictUnder dirP p

theorem removableFS_zero (mountC : String) (dirP : FPath) (fs : FS)
    (p : FPath) (n : FNode) :
    removableFS mountC dirP fs 0 p n = (matchLink mountC n && isStrictUnder dirP p) := rfl

theorem removableFS_succ (mountC : String) (dirP : FPath) (fs : FS)
    (fuel : Nat) (p : FPath) (n : FNode) :
    removableFS mountC dirP fs (fuel + 1) p n =
      ((match n with
        | FNode.link t => strHasPre mountC t
        | FNode.dir => (fs.filter (fun e => isStrictUnder p e.1)).all
            (fun e => removableFS mountC dirP fs fuel e.1 e.2)
        | FNode.file _ => false) && isStrictUnder dirP p) := rfl

theorem removableFS_mono {mountC : String} {dirP : FPath} {fs : FS} :
    ∀ {fuel : Nat} {p : FPath} {n : FNode},
    removableFS mountC dirP fs fuel p n = true →
    removableFS mountC dirP fs (fuel + 1) p n = true := by
  intro fuel
  induction fuel with
  | zero =>
    intro p n h
    rw [removableFS_zero] at h
    rw [removableFS_succ]
    rcases Bool.and_eq_true_iff.1 h with ⟨h1, h2⟩
    cases n with
    | file tag => simp [matchLink] at h1
    | dir => simp [matchLink] at h1
    | link t =>
      simp only [matchLink] at h1
      simp [h1, h2]
  | succ fuel ih =>
    intro p n h
    rw [removableFS_succ] at h
    rw [removableFS_succ]
    rcases Bool.and_eq_true_iff.1 h with ⟨h1, h2⟩
    cases n with
    | file tag => simp at h1
    | link t => simp only at h1; simp [h1, h2]
    | dir =>
      simp only at h1
      rw [List.all_eq_true] at h1
      have : ((fs.filter (fun e => isStrictUnder p e.1)).all
          (fun e => removableFS mountC dirP fs (fuel + 1) e.1 e.2)) = true := by
        rw [List.all_eq_true]
        intro e he
        exact ih (h1 e he)
      simp [this, h2]

theorem removableFS_le {mountC : String} {dirP : FPath} {fs : FS}
    {k K : Nat} (hk : k ≤ K) {p : FPath} {n : FNode}
    (h : removableFS mountC dirP fs k p n = true) :
    removableFS mountC dirP fs K p n = true := by
  induction K with
  | zero =>
    have : k = 0 := Nat.le_zero.1 hk
    rw [← this]
    exact h
  | succ K ih =>
    rcases Nat.lt_or_ge k (K + 1) with hlt | hge
    · exact removableFS_mono (ih (Nat.lt_succ_iff.1 hlt))
    · have : k = K + 1 := Nat.le_antisymm hk hge
      rw [← this]
      exact h

theorem lookupFS_append_of_some {fs : FS} {l : FS} {q : FPath} {n : FNode}
    (h : lookupFS fs q = some n) : lookupFS (fs ++ l) q = some n := by
  unfold lookupFS at *
  rcases hf : fs.find? (fun e => e.1 == q) with _ | e
  · rw [hf] at h; simp at h
  · rw [List.find?_append, hf]
    rw [hf] at h
    exact h

theorem lookupFS_erase_self {fs : FS} {p : FPath} :
    lookupFS (eraseFS fs p) p = none := by
  unfold lookupFS eraseFS
  rcases hf : (fs.filter (fun e => !(e.1 == p))).find? (fun e => e.1 == p) with _ | e
  · simp
  · have h1 := List.find?_some hf
    have h2 := List.mem_of_find?_eq_some hf
    rcases List.mem_filter.1 h2 with ⟨_, hkeep⟩
    rw [h1] at hkeep
    simp at hkeep

/-- A protected node: not a mount-matching symlink, and (for a directory)
not removable by the cascading empty-directory cleanup at any depth. -/
def ProtectedN (mountC : String) (dirP : FPath) (fs : FS) (q : FPath) (n : FNode) : Prop :=
  matchLink mountC n = false ∧
  (n = FNode.dir → ∀ k, removableFS mountC dirP fs k q n = false)

theorem isStrictUnder_trans {a b c : FPath}
    (h1 : isStrictUnder a b = true) (h2 : isStrictUnder b c = true) :
    isStrictUnder a c = true := by
  unfold isStrictUnder at *
  rcases Bool.and_eq_true_iff.1 h1 with ⟨h1p, h1l⟩
  rcases Bool.and_eq_true_iff.1 h2 with ⟨h2p, h2l⟩
  rw [List.isPrefixOf_iff_prefix] at h1p h2p
  rw [Bool.and_eq_true_iff]
  refine ⟨List.isPrefixOf_iff_prefix.2 (h1p.trans h2p), ?_⟩
  simp only [decide_eq_true_eq] at *
  omega

theorem exists_uniform_fuel {mountC : String} {dirP : FPath} {fs : FS}
    (D : List (FPath × FNode))
    (h : ∀ e ∈ D, ∃ k, removableFS mountC dirP fs k e.1 e.2 = true) :
    ∃ K, ∀ e ∈ D, removableFS mountC dirP fs K e.1 e.2 = true := by
  induction D with
  | nil => exact ⟨0, by simp⟩
  | cons e D ih =>
    rcases h e (by simp) with ⟨k, hk⟩
    rcases ih (fun x hx => h x (by simp [hx])) with ⟨K, hK⟩
    refine ⟨max k K, fun x hx => ?_⟩
    rcases List.mem_cons.1 hx with rfl | hx
    · exact removableFS_le (Nat.le_max_left _ _) hk
    · exact removableFS_le (Nat.le_max_right _ _) (hK x hx)

/-- A directory below the walk root that the cleanup cannot remove has a
protected strict descendant entry. -/
theorem protected_desc_of_not_removable {mountC : String} {dirP : FPath}
    {fs : FS} {q : FPath}
    (hunder : isStrictUnder dirP q = true)
    (hnr : ∀ k, removableFS mountC dirP fs k q FNode.dir = false) :
    ∃ r m, (r, m) ∈ fs ∧ isStrictUnder q r = true ∧ ProtectedN mountC dirP fs r m := by
  by_contra hcon
  push_neg at hcon
  have hall : ∀ e ∈ fs.filter (fun e => isStrictUnder q e.1),
      ∃ k, removableFS mountC dirP fs k e.1 e.2 = true := by
    intro e he
    rcases List.mem_filter.1 he with ⟨hmem, hu⟩
    have hnp := hcon e.1 e.2 hmem hu
    unfold ProtectedN at hnp
    push_neg at hnp
    by_cases hml : matchLink mountC e.2 = true
    · refine ⟨0, ?_⟩
      rw [removableFS_zero, Bool.and_eq_true_iff]
      exact ⟨hml, isStrictUnder_trans hunder hu⟩
    · rcases hnp (by simpa using hml) with ⟨hdir, k, hk⟩
      exact ⟨k, by simpa using hk⟩
  rcases exists_uniform_fuel _ hall with ⟨K, hK⟩
  have : removableFS mountC dirP fs (K + 1) q FNode.dir = true := by
    rw [removableFS_succ, Bool.and_eq_true_iff]
    refine ⟨?_, hunder⟩
    rw [List.all_eq_true]
    exact hK
  rw [hnr (K + 1)] at this
  cases this

theorem lookupFS_of_mem_nodup {fs : FS} (hn : (fs.map Prod.fst).Nodup)
    {p : FPath} {n : FNode} (hm : (p, n) ∈ fs) : lookupFS fs p = some n := by
  induction fs with
  | nil => simp at hm
  | cons e fs ih =>
    simp only [List.map_cons, List.nodup_cons] at hn
    rcases List.mem_cons.1 hm with rfl | hm
    · unfold lookupFS
      simp [List.find?_cons_of_pos]
    · have hne : e.1 ≠ p := by
        intro he
        exact hn.1 (by rw [he]; exact List.mem_map.2 ⟨(p, n), hm, rfl⟩)
      unfold lookupFS at *
      rw [List.find?_cons_of_neg _ (by simpa using hne)]
      exact ih hn.2 hm

theorem lookupFS_erase_sub {fs : FS} {p q : FPath} {n : FNode}
    (h : lookupFS (eraseFS fs p) q = some n) : lookupFS fs q = some n := by
  by_cases hqp : q = p
  · rw [hqp, lookupFS_erase_self] at h
    cases h
  · rw [lookupFS_erase_ne hqp] at h
    exact h

/-- Phase 1 (the walk) of `clearLinks`: the running state only loses
bindings, every non-matching binding survives, and every collected
directory is a directory of the original state found on the walk. -/
theorem clearStep_fold_frame (mountC : String) (fs0 : FS) :
    ∀ (order : List FPath) (st : FS × String × List FPath),
    (∀ q n, lookupFS st.1 q = some n → lookupFS fs0 q = some n) →
    (∀ q n, lookupFS (order.foldl (clearStep mountC) st).1 q = some n →
      lookupFS st.1 q = some n) ∧
    (∀ q n, lookupFS st.1 q = some n → matchLink mountC n = false →
      lookupFS (order.foldl (clearStep mountC) st).1 q = some n) ∧
    (∀ d, d ∈ (order.foldl (clearStep mountC) st).2.2 →
      d ∈ st.2.2 ∨ (d ∈ order ∧ lookupFS fs0 d = some FNode.dir)) := by
  intro order
  induction order with
  | nil =>
    intro st hsub
    exact ⟨fun q n h => h, fun q n h _ => h, fun d hd => Or.inl hd⟩
  | cons p rest ih =>
    intro st hsub
    rcases st with ⟨cur, pfx0, dirs0⟩
    rw [List.foldl_cons]
    rcases hl : lookupFS cur p with _ | nd
    · have hstep : clearStep mountC (cur, pfx0, dirs0) p = (cur, pfx0, dirs0) := by
        unfold clearStep
        rw [hl]
      rw [hstep]
      rcases ih (cur, pfx0, dirs0) hsub with ⟨ha, hb, hc⟩
      exact ⟨ha, hb, fun d hd => (hc d hd).imp id (fun h2 => ⟨by simp [h2.1], h2.2⟩)⟩
    · cases nd with
      | file tag =>
        have hstep : clearStep mountC (cur, pfx0, dirs0) p = (cur, pfx0, dirs0) := by
          unfold clearStep
          rw [hl]
        rw [hstep]
        rcases ih (cur, pfx0, dirs0) hsub with ⟨ha, hb, hc⟩
        exact ⟨ha, hb, fun d hd => (hc d hd).imp id (fun h2 => ⟨by simp [h2.1], h2.2⟩)⟩
      | dir =>
        have hstep : clearStep mountC (cur, pfx0, dirs0) p = (cur, pfx0, dirs0 ++ [p]) := by
          unfold clearStep
          rw [hl]
        rw [hstep]
        rcases ih (cur, pfx0, dirs0 ++ [p]) hsub with ⟨ha, hb, hc⟩
        refine ⟨ha, hb, fun d hd => ?_⟩
        rcases hc d hd with hmem | h2
        · rcases List.mem_append.1 hmem with hmem0 | hmemp
          · exact Or.inl hmem0
          · rcases List.mem_singleton.1 hmemp with rfl
            exact Or.inr ⟨by simp, hsub d FNode.dir hl⟩
        · exact Or.inr ⟨by simp [h2.1], h2.2⟩
      | link t =>
        by_cases hm : strHasPre mountC t = true
        · have hstep : clearStep mountC (cur, pfx0, dirs0) p = (eraseFS cur p, t, dirs0) := by
            unfold clearStep
            rw [hl]
            simp [hm]
          rw [hstep]
          have hsub2 : ∀ q n, lookupFS (eraseFS cur p) q = some n →
              lookupFS fs0 q = some n :=
            fun q n h => hsub q n (lookupFS_erase_sub h)
          rcases ih (eraseFS cur p, t, dirs0) hsub2 with ⟨ha, hb, hc⟩
          refine ⟨?_, ?_, fun d hd => (hc d hd).imp id (fun h2 => ⟨by simp [h2.1], h2.2⟩)⟩
          · exact fun q n h => lookupFS_erase_sub (ha q n h)
          · intro q n hq hml
            have hqp : q ≠ p := by
              intro hqp
              rw [hqp, hl] at hq
              injection hq with hq2
              rw [← hq2] at hml
              simp [matchLink, hm] at hml
            exact hb q n (by rw [lookupFS_erase_ne hqp]; exact hq) hml
        · have hstep : clearStep mountC (cur, pfx0, dirs0) p = (cur, pfx0, dirs0) := by
            unfold clearStep
            rw [hl]
            simp [hm]
          rw [hstep]
          rcases ih (cur, pfx0, dirs0) hsub with ⟨ha, hb, hc⟩
          exact ⟨ha, hb, fun d hd => (hc d hd).imp id (fun h2 => ⟨by simp [h2.1], h2.2⟩)⟩

/-- Phase 2 of `clearLinks` (empty-directory removal): protected bindings
of the original state survive, and the pass only removes bindings. -/
theorem removeEmptyDirs_frame (mountC : String) (dirP : FPath) (fs0 : FS)
    (hnodup : (fs0.map Prod.fst).Nodup) :
    ∀ (dirs : List FPath) (cur : FS),
    (∀ d ∈ dirs, lookupFS fs0 d = some FNode.dir ∧ isStrictUnder dirP d = true) →
    (∀ q n, lookupFS fs0 q = some n → ProtectedN mountC dirP fs0 q n →
      lookupFS cur q = some n) →
    (∀ q n, lookupFS fs0 q = some n → ProtectedN mountC dirP fs0 q n →
      lookupFS (removeEmptyDirs cur dirs) q = some n) ∧
    (∀ q n, lookupFS (removeEmptyDirs cur dirs) q = some n →
      lookupFS cur q = some n) := by
  intro dirs
  induction dirs with
  | nil =>
    intro cur _ hpres
    exact ⟨fun q n hq hp => hpres q n hq hp, fun q n h => h⟩
  | cons d rest ih =>
    intro cur hdirs hpres
    have hstep : removeEmptyDirs cur (d :: rest) =
        removeEmptyDirs (if (cur.filter (fun e => isStrictUnder d e.1)).isEmpty
          then eraseFS cur d else cur) rest := rfl
    rw [hstep]
    by_cases hemp : (cur.filter (fun e => isStrictUnder d e.1)).isEmpty = true
    · rw [if_pos hemp]
      have hpres2 : ∀ q n, lookupFS fs0 q = some n →
          ProtectedN mountC dirP fs0 q n → lookupFS (eraseFS cur d) q = some n := by
        intro q n hq hp
        have hqd : q ≠ d := by
          intro hqd
          rcases hdirs d (by simp) with ⟨hd0, hdu⟩
          rw [hqd, hd0] at hq
          injection hq with hq2
          have hnr : ∀ k, removableFS mountC dirP fs0 k d FNode.dir = false := by
            intro k
            have hthis := hp.2 hq2.symm k
            rw [hqd, ← hq2] at hthis
            exact hthis
          rcases protected_desc_of_not_removable hdu hnr with ⟨r, m, hrm, hru, hrp⟩
          have hlr : lookupFS fs0 r = some m := lookupFS_of_mem_nodup hnodup hrm
          have hcr : lookupFS cur r = some m := hpres r m hlr hrp
          unfold lookupFS at hcr
          rcases hfind : cur.find? (fun e => e.1 == r) with _ | e
          · rw [hfind] at hcr
            simp at hcr
          · have hmem := List.mem_of_find?_eq_some hfind
            have hkey := List.find?_some hfind
            simp only [beq_iff_eq] at hkey
            have : e ∈ cur.filter (fun e => isStrictUnder d e.1) :=
              List.mem_filter.2 ⟨hmem, by rw [hkey]; exact hru⟩
            rw [List.isEmpty_iff] at hemp
            rw [hemp] at this
            simp at this
        rw [lookupFS_erase_ne hqd]
        exact hpres q n hq hp
      rcases ih (eraseFS cur d) (fun x hx => hdirs x (by simp [hx])) hpres2 with ⟨ha, hb⟩
      exact ⟨ha, fun q n h => lookupFS_erase_sub (hb q n h)⟩
    · rw [if_neg hemp]
      exact ih cur (fun x hx => hdirs x (by simp [hx])) hpres

/-- Assembled frame property of `clearLinks`: protected bindings survive
the whole cleaner. -/
theorem clearLinksFS_frame (mount : String) (dirP : FPath) (fs0 : FS)
    (hnodup : (fs0.map Prod.fst).Nodup)
    (q : FPath) (n : FNode) (hq : lookupFS fs0 q = some n)
    (hprot : ProtectedN (goClean mount) dirP fs0 q n) :
    lookupFS (clearLinksFS mount dirP fs0).1 q = some n := by
  have hmain : (clearLinksFS mount dirP fs0).1 =
      removeEmptyDirs
        ((walkOrder fs0 dirP).foldl (clearStep (goClean mount)) (fs0, "", [])).1
        ((walkOrder fs0 dirP).foldl (clearStep (goClean mount)) (fs0, "", [])).2.2.reverse :=
    rfl
  rw [hmain]
  rcases clearStep_fold_frame (goClean mount) fs0 (walkOrder fs0 dirP) (fs0, "", [])
    (fun _ _ h => h) with ⟨_, hb, hc⟩
  have hdirs : ∀ d ∈ ((walkOrder fs0 dirP).foldl (clearStep (goClean mount))
      (fs0, "", [])).2.2.reverse,
      lookupFS fs0 d = some FNode.dir ∧ isStrictUnder dirP d = true := by
    intro d hd
    rw [List.mem_reverse] at hd
    rcases hc d hd with hin | ⟨hord, hdir⟩
    · simp at hin
    · refine ⟨hdir, ?_⟩
      have hmem := (sortBy_perm pathLe _).mem_iff.1 hord
      rcases List.mem_filter.1 hmem with ⟨_, hpred⟩
      exact hpred
  have hpres1 : ∀ q2 n2, lookupFS fs0 q2 = some n2 →
      ProtectedN (goClean mount) dirP fs0 q2 n2 →
      lookupFS ((walkOrder fs0 dirP).foldl (clearStep (goClean mount))
        (fs0, "", [])).1 q2 = some n2 :=
    fun q2 n2 h2 hp2 => hb q2 n2 h2 hp2.1
  exact (removeEmptyDirs_frame (goClean mount) dirP fs0 hnodup _ _ hdirs hpres1).1 q n hq hprot

/-! ### The creation phase only adds fresh bindings -/

theorem mkdirAllGo_cons_eq (fs : FS) (fuel : Nat) (acc : FPath) (seg : String)
    (rest : List String) :
    mkdirAllGo fs fuel acc (seg :: rest) =
      (match lookupFS fs (acc ++ [seg]) with
       | some FNode.dir => mkdirAllGo fs fuel (acc ++ [seg]) rest
       | some (FNode.link t) =>
         match resolvePath fs fuel [] (strToPath t) with
         | some r =>
           match lookupFS fs r with
           | some FNode.dir => mkdirAllGo fs fuel r rest
           | _ => none
         | none => none
       | some (FNode.file _) => none
       | none => mkdirAllGo (fs ++ [(acc ++ [seg], FNode.dir)]) fuel (acc ++ [seg]) rest) := rfl

theorem mkdirAllGo_preserves (fuel : Nat) :
    ∀ (segs : List String) (fs : FS) (acc : FPath) (fs' : FS),
    mkdirAllGo fs fuel acc segs = some fs' →
    ∀ q n, lookupFS fs q = some n → lookupFS fs' q = some n := by
  intro segs
  induction segs with
  | nil =>
    intro fs acc fs' h q n hq
    have h2 : some fs = some fs' := h
    injection h2 with h3
    rw [← h3]
    exact hq
  | cons seg rest ih =>
    intro fs acc fs' h q n hq
    rw [mkdirAllGo_cons_eq] at h
    rcases hl : lookupFS fs (acc ++ [seg]) with _ | nd
    · rw [hl] at h
      have h2 : mkdirAllGo (fs ++ [(acc ++ [seg], FNode.dir)]) fuel (acc ++ [seg]) rest =
          some fs' := h
      exact ih (fs ++ [(acc ++ [seg], FNode.dir)]) (acc ++ [seg]) fs' h2 q n
        (lookupFS_append_of_some hq)
    · cases nd with
      | dir =>
        rw [hl] at h
        have h2 : mkdirAllGo fs fuel (acc ++ [seg]) rest = some fs' := h
        exact ih fs (acc ++ [seg]) fs' h2 q n hq
      | file tag =>
        rw [hl] at h
        have h2 : (none : Option FS) = some fs' := h
        cases h2
      | link t =>
        rw [hl] at h
        have h2 : (match resolvePath fs fuel [] (strToPath t) with
            | some r =>
              match lookupFS fs r with
              | some FNode.dir => mkdirAllGo fs fuel r rest
              | _ => none
            | none => none) = some fs' := h
        rcases hr : resolvePath fs fuel [] (strToPath t) with _ | r
        · rw [hr] at h2
          cases h2
        · rw [hr] at h2
          have h3 : (match lookupFS fs r with
              | some FNode.dir => mkdirAllGo fs fuel r rest
              | _ => none) = some fs' := h2
          rcases hl2 : lookupFS fs r with _ | nd2
          · rw [hl2] at h3
            cases h3
          · rw [hl2] at h3
            cases nd2 with
            | dir =>
              have h4 : mkdirAllGo fs fuel r rest = some fs' := h3
              exact ih fs r fs' h4 q n hq
            | file tag =>
              have h4 : (none : Option FS) = some fs' := h3
              cases h4
            | link t2 =>
              have h4 : (none : Option FS) = some fs' := h3
              cases h4

theorem symlinkFS_preserves {fs : FS} {fuel : Nat} {target : String}
    {dest : FPath} {fs' : FS} (h : symlinkFS fs fuel target dest = some fs') :
    ∀ q n, lookupFS fs q = some n → lookupFS fs' q = some n := by
  intro q n hq
  unfold symlinkFS at h
  rcases hg : dest.getLast? with _ | last
  · rw [hg] at h
    have h2 : (none : Option FS) = some fs' := h
    cases h2
  · rw [hg] at h
    rcases hr : resolvePath fs fuel [] dest.dropLast with _ | r
    · rw [hr] at h
      have h2 : (none : Option FS) = some fs' := h
      cases h2
    · rw [hr] at h
      have h2 : (match lookupFS fs (r ++ [last]) with
          | some _ => none
          | none => some (fs ++ [(r ++ [last], FNode.link target)])) = some fs' := h
      rcases hl : lookupFS fs (r ++ [last]) with _ | old
      · rw [hl] at h2
        have h3 : some (fs ++ [(r ++ [last], FNode.link target)]) = some fs' := h2
        injection h3 with h4
        rw [← h4]
        exact lookupFS_append_of_some hq
      · rw [hl] at h2
        have h3 : (none : Option FS) = some fs' := h2
        cases h3

theorem foldlM_option_preserves {α : Type} (f : FS → α → Option FS)
    (hf : ∀ cur cur2 a, f cur a = some cur2 →
      ∀ q n, lookupFS cur q = some n → lookupFS cur2 q = some n) :
    ∀ (l : List α) (cur cur' : FS), l.foldlM f cur = some cur' →
    ∀ q n, lookupFS cur q = some n → lookupFS cur' q = some n := by
  intro l
  induction l with
  | nil =>
    intro cur cur' h q n hq
    have h2 : some cur = some cur' := h
    injection h2 with h3
    rw [← h3]
    exact hq
  | cons a rest ih =>
    intro cur cur' h q n hq
    rw [List.foldlM_cons] at h
    rcases ha : f cur a with _ | mid
    · rw [ha] at h
      cases h
    · rw [ha] at h
      have h2 : rest.foldlM f mid = some cur' := h
      exact ih mid cur' h2 q n (hf cur mid a ha q n hq)

theorem symlinkRepo_entry_step (fuel : Nat) (name roRoot rwRoot : String) :
    ∀ (cur cur2 : FS) (e : String × fileInfo),
    (match mkdirAll cur fuel (strToPath (goJoin (goJoin rwRoot name) e.1)).dropLast with
     | none => none
     | some cur1 =>
       symlinkFS cur1 fuel (goJoin (goJoin roRoot name) e.1)
         (strToPath (goJoin (goJoin rwRoot name) e.1))) = some cur2 →
    ∀ q n, lookupFS cur q = some n → lookupFS cur2 q = some n := by
  intro cur cur2 e he q n hq
  rcases hm : mkdirAll cur fuel (strToPath (goJoin (goJoin rwRoot name) e.1)).dropLast
    with _ | cur1
  · rw [hm] at he
    cases he
  · rw [hm] at he
    have he2 : symlinkFS cur1 fuel (goJoin (goJoin roRoot name) e.1)
        (strToPath (goJoin (goJoin rwRoot name) e.1)) = some cur2 := he
    exact symlinkFS_preserves he2 q n
      (mkdirAllGo_preserves fuel _ cur [] cur1 hm q n hq)

theorem symlinkRepo_preserves {fuel : Nat} {name : String} {child : repoTree}
    {roRoot rwRoot : String} {fs fs' : FS}
    (h : symlinkRepo fuel name child roRoot rwRoot fs = some fs') :
    ∀ q n, lookupFS fs q = some n → lookupFS fs' q = some n := by
  intro q n hq
  unfold symlinkRepo at h
  rcases hs : statFS fs fuel (strToPath (goJoin rwRoot name)) with _ | nd
  · rw [hs] at h
    have h2 : child.entries.foldlM (fun cur e =>
        match mkdirAll cur fuel (strToPath (goJoin (goJoin rwRoot name) e.1)).dropLast with
        | none => none
        | some cur2 =>
          symlinkFS cur2 fuel (goJoin (goJoin roRoot name) e.1)
            (strToPath (goJoin (goJoin rwRoot name) e.1))) fs = some fs' := h
    exact foldlM_option_preserves _
      (fun cur cur2 e he => symlinkRepo_entry_step fuel name roRoot rwRoot cur cur2 e he)
      child.entries fs fs' h2 q n hq
  · cases nd with
    | dir =>
      rw [hs] at h
      have h2 : some fs = some fs' := h
      injection h2 with h3
      rw [← h3]
      exact hq
    | file tag =>
      rw [hs] at h
      have h2 : child.entries.foldlM (fun cur e =>
          match mkdirAll cur fuel (strToPath (goJoin (goJoin rwRoot name) e.1)).dropLast with
          | none => none
          | some cur2 =>
            symlinkFS cur2 fuel (goJoin (goJoin roRoot name) e.1)
              (strToPath (goJoin (goJoin rwRoot name) e.1))) fs = some fs' := h
      exact foldlM_option_preserves _
        (fun cur cur2 e he => symlinkRepo_entry_step fuel name roRoot rwRoot cur cur2 e he)
        child.entries fs fs' h2 q n hq
    | link t =>
      rw [hs] at h
      have h2 : child.entries.foldlM (fun cur e =>
          match mkdirAll cur fuel (strToPath (goJoin (goJoin rwRoot name) e.1)).dropLast with
          | none => none
          | some cur2 =>
            symlinkFS cur2 fuel (goJoin (goJoin roRoot name) e.1)
              (strToPath (goJoin (goJoin rwRoot name) e.1))) fs = some fs' := h
      exact foldlM_option_preserves _
        (fun cur cur2 e he => symlinkRepo_entry_step fuel name roRoot rwRoot cur cur2 e he)
        child.entries fs fs' h2 q n hq

theorem createTreeLinksList_preserves (fuel : Nat) :
    ∀ (N : Nat) (l : List (String × repoTree)), sizeOf l ≤ N →
    ∀ (allRW : List String) (rw : repoTree) (roRoot rwRoot : String) (fs fs' : FS),
    createTreeLinksList fuel l allRW rw roRoot rwRoot fs = some fs' →
    ∀ q n, lookupFS fs q = some n → lookupFS fs' q = some n := by
  intro N
  induction N with
  | zero =>
    intro l hl
    exfalso
    cases l with
    | nil => simp at hl
    | cons a l => simp at hl
  | succ N ih =>
    intro l hl allRW rw roRoot rwRoot fs fs' h q n hq
    cases l with
    | nil =>
      have h2 : some fs = some fs' := h
      injection h2 with h3
      rw [← h3]
      exact hq
    | cons hd rest =>
      rcases hd with ⟨nm, ch⟩
      have hsz : sizeOf ((nm, ch) :: rest) = 1 + (1 + sizeOf nm + sizeOf ch) + sizeOf rest := by
        simp [Prod.mk.sizeOf_spec]
      have hrest : sizeOf rest ≤ N := by omega
      have h0 : createTreeLinksList fuel ((nm, ch) :: rest) allRW rw roRoot rwRoot fs =
          (match classifyChild nm allRW with
           | LinkDecision.recurse =>
             match rw.children.find? (fun e => e.1 == nm) with
             | some e =>
               match createTreeLinks fuel ch e.2 (goJoin roRoot nm) (goJoin rwRoot nm) fs with
               | some fs2 => createTreeLinksList fuel rest allRW rw roRoot rwRoot fs2
               | none => none
             | none => none
           | LinkDecision.partialCover => createTreeLinksList fuel rest allRW rw roRoot rwRoot fs
           | LinkDecision.fullLink =>
             match mkdirAll fs fuel (strToPath (goJoin rwRoot nm)).dropLast with
             | none => none
             | some fs2 =>
               match symlinkFS fs2 fuel (goJoin roRoot nm) (strToPath (goJoin rwRoot nm)) with
               | none => none
               | some fs3 => createTreeLinksList fuel rest allRW rw roRoot rwRoot fs3) := rfl
      rw [h0] at h
      rcases hcl : classifyChild nm allRW with _ | _ | _
      · rw [hcl] at h
        rcases hfind : rw.children.find? (fun e => e.1 == nm) with _ | e
        · rw [hfind] at h
          cases h
        · rw [hfind] at h
          have h2 : (match createTreeLinks fuel ch e.2 (goJoin roRoot nm)
              (goJoin rwRoot nm) fs with
            | some fs2 => createTreeLinksList fuel rest allRW rw roRoot rwRoot fs2
            | none => none) = some fs' := h
          rcases hct : createTreeLinks fuel ch e.2 (goJoin roRoot nm) (goJoin rwRoot nm) fs
            with _ | fs2
          · rw [hct] at h2
            cases h2
          · rw [hct] at h2
            have h3 : createTreeLinksList fuel rest allRW rw roRoot rwRoot fs2 = some fs' := h2
            rcases ch with ⟨chCh, chEnt⟩
            have hchsz : sizeOf chCh ≤ N := by
              have : sizeOf (repoTree.mk chCh chEnt) = 1 + sizeOf chCh + sizeOf chEnt := by
                simp [repoTree.mk.sizeOf_spec]
              omega
            have hct2 : createTreeLinksList fuel chCh
                ((allChildren e.2).map (·.1)) e.2 (goJoin roRoot nm) (goJoin rwRoot nm) fs =
                some fs2 := hct
            have hstep := ih chCh hchsz _ e.2 (goJoin roRoot nm) (goJoin rwRoot nm)
              fs fs2 hct2 q n hq
            exact ih rest hrest allRW rw roRoot rwRoot fs2 fs' h3 q n hstep
      · rw [hcl] at h
        have h2 : createTreeLinksList fuel rest allRW rw roRoot rwRoot fs = some fs' := h
        exact ih rest hrest allRW rw roRoot rwRoot fs fs' h2 q n hq
      · rw [hcl] at h
        rcases hm : mkdirAll fs fuel (strToPath (goJoin rwRoot nm)).dropLast with _ | fs2
        · rw [hm] at h
          cases h
        · rw [hm] at h
          have h2 : (match symlinkFS fs2 fuel (goJoin roRoot nm)
              (strToPath (goJoin rwRoot nm)) with
            | none => none
            | some fs3 => createTreeLinksList fuel rest allRW rw roRoot rwRoot fs3) =
              some fs' := h
          rcases hsym : symlinkFS fs2 fuel (goJoin roRoot nm) (strToPath (goJoin rwRoot nm))
            with _ | fs3
          · rw [hsym] at h2
            cases h2
          · rw [hsym] at h2
            have h3 : createTreeLinksList fuel rest allRW rw roRoot rwRoot fs3 = some fs' := h2
            have hq2 := mkdirAllGo_preserves fuel _ fs [] fs2 hm q n hq
            have hq3 := symlinkFS_preserves hsym q n hq2
            exact ih rest hrest allRW rw roRoot rwRoot fs3 fs' h3 q n hq3

theorem createTreeLinks_preserves {fuel : Nat} {ro rw : repoTree}
    {roRoot rwRoot : String} {fs fs' : FS}
    (h : createTreeLinks fuel ro rw roRoot rwRoot fs = some fs') :
    ∀ q n, lookupFS fs q = some n → lookupFS fs' q = some n := by
  rcases ro with ⟨roCh, roEnt⟩
  have h2 : createTreeLinksList fuel roCh ((allChildren rw).map (·.1)) rw
      roRoot rwRoot fs = some fs' := h
  exact createTreeLinksList_preserves fuel (sizeOf roCh) roCh (Nat.le_refl _)
    _ rw roRoot rwRoot fs fs' h2

theorem createLinks_preserves {fuel : Nat} {ro rw : repoTree}
    {roRoot rwRoot : String} {fs fs' : FS}
    (h : createLinks fuel ro rw roRoot rwRoot fs = some fs') :
    ∀ q n, lookupFS fs q = some n → lookupFS fs' q = some n := by
  intro q n hq
  unfold createLinks at h
  rcases hct : createTreeLinks fuel ro rw roRoot rwRoot fs with _ | fs1
  · rw [hct] at h
    cases h
  · rw [hct] at h
    have h2 : (allChildren ro).foldlM (fun cur e =>
        if ((allChildren rw).map (·.1)).contains e.1 then some cur
        else symlinkRepo fuel e.1 e.2 roRoot rwRoot cur) fs1 = some fs' := h
    refine foldlM_option_preserves _ ?_ (allChildren ro) fs1 fs' h2 q n
      (createTreeLinks_preserves hct q n hq)
    intro cur cur2 e he q2 n2 hq2
    by_cases hc : ((allChildren rw).map (·.1)).contains e.1 = true
    · rw [if_pos hc] at he
      injection he with he2
      rw [← he2]
      exact hq2
    · rw [if_neg hc] at he
      exact symlinkRepo_preserves he q2 n2 hq2

/-- Invert a successful `Checkout` into its pipeline facts. -/
theorem Checkout_ok_dissect {env : SlothEnv} {fuel : Nat} {ro0 rw : String}
    {fs : FS} {fs' : FS} {out : List String}
    (h : Checkout env fuel ro0 rw fs = Except.ok (fs', out)) :
    ∃ roT oldInfos,
      repoTreeFromSlothFS env (goClean ro0) = Except.ok roT ∧
      (if (clearLinksFS (goDir (goClean ro0)) (strToPath rw) fs).2 == ""
        then Except.ok ([] : FileMap)
        else match repoTreeFromSlothFS env (goJoin (goDir (goClean ro0))
            (clearLinksFS (goDir (goClean ro0)) (strToPath rw) fs).2) with
          | Except.error e => Except.error (CkErr.sloth e)
          | Except.ok t => Except.ok (allFiles t)) = Except.ok oldInfos ∧
      createLinks fuel roT (newRepoTreeFS (clearLinksFS (goDir (goClean ro0))
        (strToPath rw) fs).1 fuel rw) (goClean ro0) rw
        (clearLinksFS (goDir (goClean ro0)) (strToPath rw) fs).1 = some fs' ∧
      out = (changedFiles oldInfos (allFiles roT)).map (fun p => goJoin (goClean ro0) p) := by
  have h1 : (match (if (clearLinksFS (goDir (goClean ro0)) (strToPath rw) fs).2 == ""
      then Except.ok ([] : FileMap)
      else match repoTreeFromSlothFS env (goJoin (goDir (goClean ro0))
          (clearLinksFS (goDir (goClean ro0)) (strToPath rw) fs).2) with
        | Except.error e => Except.error (CkErr.sloth e)
        | Except.ok t => Except.ok (allFiles t)) with
    | Except.error e => Except.error e
    | Except.ok oldInfos =>
      match repoTreeFromSlothFS env (goClean ro0) with
      | Except.error e => Except.error (CkErr.sloth e)
      | Except.ok roTree =>
        match createLinks fuel roTree (newRepoTreeFS (clearLinksFS (goDir (goClean ro0))
            (strToPath rw) fs).1 fuel rw) (goClean ro0) rw
            (clearLinksFS (goDir (goClean ro0)) (strToPath rw) fs).1 with
        | none => Except.error CkErr.linkErr
        | some fs2 =>
          Except.ok (fs2, (changedFiles oldInfos (allFiles roTree)).map
            (fun p => goJoin (goClean ro0) p))) = Except.ok (fs', out) := h
  rcases hinfos : (if (clearLinksFS (goDir (goClean ro0)) (strToPath rw) fs).2 == ""
      then Except.ok ([] : FileMap)
      else match repoTreeFromSlothFS env (goJoin (goDir (goClean ro0))
          (clearLinksFS (goDir (goClean ro0)) (strToPath rw) fs).2) with
        | Except.error e => Except.error (CkErr.sloth e)
        | Except.ok t => Except.ok (allFiles t)) with e | oldInfos
  · rw [hinfos] at h1
    have h2 : (Except.error e : Except CkErr (FS × List String)) = Except.ok (fs', out) := h1
    cases h2
  · rw [hinfos] at h1
    rcases hro : repoTreeFromSlothFS env (goClean ro0) with e | roT
    · rw [hro] at h1
      have h2 : (Except.error (CkErr.sloth e) : Except CkErr (FS × List String)) =
          Except.ok (fs', out) := h1
      cases h2
    · rw [hro] at h1
      have h1b : (match createLinks fuel roT (newRepoTreeFS (clearLinksFS (goDir (goClean ro0))
            (strToPath rw) fs).1 fuel rw) (goClean ro0) rw
            (clearLinksFS (goDir (goClean ro0)) (strToPath rw) fs).1 with
          | none => Except.error CkErr.linkErr
          | some fs2 =>
            Except.ok (fs2, (changedFiles oldInfos (allFiles roT)).map
              (fun p => goJoin (goClean ro0) p))) = Except.ok (fs', out) := h1
      rcases hcr : createLinks fuel roT (newRepoTreeFS (clearLinksFS (goDir (goClean ro0))
          (strToPath rw) fs).1 fuel rw) (goClean ro0) rw
          (clearLinksFS (goDir (goClean ro0)) (strToPath rw) fs).1 with _ | fs2
      · rw [hcr] at h1b
        have h2 : (Except.error CkErr.linkErr : Except CkErr (FS × List String)) =
            Except.ok (fs', out) := h1b
        cases h2
      · rw [hcr] at h1b
        have h2 : (Except.ok ((fs2, (changedFiles oldInfos (allFiles roT)).map
            (fun p => goJoin (goClean ro0) p)) : FS × List String)) =
            Except.ok (fs', out) := h1b
        injection h2 with h3
        injection h3 with h4 h5
        rw [← h4, ← h5]
        exact ⟨roT, oldInfos, rfl, rfl, hcr, rfl⟩

/-- C7: across a successful `Checkout(ro, rw)`, every pre-existing object
that is neither a symlink into the mount (the parent of `ro`) nor a
directory emptied by the cascading symlink removal keeps exactly its old
binding: it is never removed, overwritten or replaced. -/
theorem claim_C7 (env : SlothEnv) (fuel : Nat) (ro0 rw : String) (fs : FS)
    (fs' : FS) (out : List String)
    (hnodup : (fs.map Prod.fst).Nodup)
    (hok : Checkout env fuel ro0 rw fs = Except.ok (fs', out))
    (q : FPath) (n : FNode) (hq : lookupFS fs q = some n)
    (hprot : ProtectedN (goClean (goDir (goClean ro0))) (strToPath rw) fs q n) :
    lookupFS fs' q = some n := by
  rcases Checkout_ok_dissect hok with ⟨roT, oldInfos, _, _, hcr, _⟩
  exact createLinks_preserves hcr q n
    (clearLinksFS_frame (goDir (goClean ro0)) (strToPath rw) fs hnodup q n hq hprot)

/-- A small consistent world: mount `/m`, one workspace `/m/ws` whose
manifest declares project `a` with a copyfile destination `cp`, the root
`tree.json` empty, project `a`'s `tree.json` holding one file `f`, and a
writable directory `/rw` containing one user file. -/
def env8 : SlothEnv where
  readManifest := fun f =>
    if f == "/m/ws/.slothfs/manifest.xml" then some [⟨"a", ["cp"], []⟩] else none
  readTreeJSON := fun f =>
    if f == "/m/ws/.slothfs/tree.json" then some []
    else if f == "/m/ws/a/.slothfs/tree.json" then
      some [⟨"f", "00000000000000000000000000000000000000ff", none⟩]
    else none

def fs8 : FS :=
  [(["m"], FNode.dir), (["m", "ws"], FNode.dir), (["m", "ws", "a"], FNode.dir),
   (["m", "ws", "a", "f"], FNode.file 1), (["rw"], FNode.dir),
   (["rw", "u"], FNode.file 7)]

/-- `fs8` after the first checkout: one extra symlink `rw/a → /m/ws/a`. -/
def fs8b : FS := fs8 ++ [(["rw", "a"], FNode.link "/m/ws/a")]

/-- Witness for C7 at a concrete input: the user file `rw/u` survives the
checkout with its binding intact. -/
theorem claim_C7_witness :
    lookupFS fs8b ["rw", "u"] = some (FNode.file 7) :=
  claim_C7 env8 20 "/m/ws" "/rw" fs8 fs8b ["/m/ws/a/f", "/m/ws/cp"]
    (by decide) rfl ["rw", "u"] (FNode.file 7) (by decide)
    ⟨by decide, fun hdir => by cases hdir⟩

def oidF : Oid := List.replicate 19 0 ++ [255]

def chA8 : repoTree := repoTree.mk [] [("f", fileInfo.mk (some oidF) false)]

/-- The read-only tree `env8` derefs to. -/
def roT8 : repoTree := repoTree.mk [("a", chA8)] [("cp", fileInfo.mk none false)]

/-- C8 counterexample: two back-to-back successful `Checkout`s of the same
unchanged snapshot; the writable state is reproduced exactly, but the
second change list is `["/m/ws/cp"]`, not empty — the copyfile
destination `cp` has no fingerprint (manifest entries get none and the
root `tree.json` does not override it), and `changedFiles` reports every
non-symlink path whose fingerprint is absent on either side. -/
theorem claim_C8_counterexample :
    Checkout env8 20 "/m/ws" "/rw" fs8 =
      Except.ok (fs8b, ["/m/ws/a/f", "/m/ws/cp"]) ∧
    Checkout env8 20 "/m/ws" "/rw" fs8b = Except.ok (fs8b, ["/m/ws/cp"]) ∧
    ["/m/ws/cp"] ≠ ([] : List String) :=
  ⟨rfl, rfl, by decide⟩

/-- Diffing a file map against itself returns exactly the sorted
non-symlink keys with absent fingerprints, and is empty iff every
non-symlink entry carries a resolved fingerprint. -/
theorem changedFiles_self_diff (m : FileMap) (hnodup : (m.map Prod.fst).Nodup) :
    changedFiles m m =
      sortStrings ((m.filter (fun e => !e.2.isLink && e.2.sha1.isNone)).map (·.1)) ∧
    (changedFiles m m = [] ↔ ∀ e ∈ m, e.2.isLink = false → e.2.sha1 ≠ none) := by
  have hpt : ∀ e ∈ m, changedEntry m e.1 e.2 = (!e.2.isLink && e.2.sha1.isNone) := by
    intro e he
    have hl : lookupFM m e.1 = some e.2 := by
      rcases e with ⟨p, i⟩
      exact lookupFM_some_of_mem hnodup he
    unfold changedEntry
    rw [hl]
    show (if e.2.isLink = true then false
      else match e.2.sha1, e.2.sha1 with
        | none, _ => true
        | _, none => true
        | some a, some b => a != b) = (!e.2.isLink && e.2.sha1.isNone)
    by_cases hlink : e.2.isLink = true
    · rw [if_pos hlink, hlink]
      rfl
    · rw [if_neg hlink]
      have hl2 : e.2.isLink = false := by simpa using hlink
      rw [hl2]
      rcases hs : e.2.sha1 with _ | a
      · rfl
      · simp
  constructor
  · unfold changedFiles
    rw [List.filter_congr hpt]
  · constructor
    · intro hnil e he hlink
      intro hsha
      have hmem : e.1 ∈ changedFiles m m := by
        rw [mem_changedFiles]
        refine ⟨e.2, by rcases e with ⟨p, i⟩; exact he, ?_⟩
        rw [hpt e he, hlink, hsha]
        rfl
      rw [hnil] at hmem
      simp at hmem
    · intro hall
      rw [List.eq_nil_iff_forall_not_mem]
      intro p hp
      rcases mem_changedFiles.1 hp with ⟨i, hmem, hch⟩
      rw [hpt (p, i) hmem] at hch
      rcases Bool.and_eq_true_iff.1 hch with ⟨hl2, hs2⟩
      have hne := hall (p, i) hmem (by simpa using hl2)
      exact hne (Option.isNone_iff_eq_none.1 hs2)

/-- C8 (amended): two back-to-back successful `Checkout`s reproduce the
writable state at the concrete counterexample, but the second change list
is not empty in general.  Provably: a successful `Checkout` whose cleaner
recovers a workspace name naming the same snapshot again (the warm case)
diffs the snapshot's flattened file map against itself, so its change
list is exactly the sorted non-symlink keys with absent fingerprints
joined onto ro, and it is empty iff every non-symlink entry of the
snapshot carries a resolved fingerprint.  (When the first run created no
links the second run is cold again and re-reports every changed key.) -/
theorem claim_C8_amended (env : SlothEnv) (fuel : Nat) (ro0 rw : String)
    (fs fs' : FS) (out : List String) (roT : repoTree)
    (hok : Checkout env fuel ro0 rw fs = Except.ok (fs', out))
    (hne : (clearLinksFS (goDir (goClean ro0)) (strToPath rw) fs).2 ≠ "")
    (hname : goJoin (goDir (goClean ro0))
      (clearLinksFS (goDir (goClean ro0)) (strToPath rw) fs).2 = goClean ro0)
    (hroT : repoTreeFromSlothFS env (goClean ro0) = Except.ok roT)
    (hnodup : ((allFiles roT).map Prod.fst).Nodup) :
    out = (sortStrings (((allFiles roT).filter
        (fun e => !e.2.isLink && e.2.sha1.isNone)).map (·.1))).map
      (fun p => goJoin (goClean ro0) p) ∧
    (out = [] ↔ ∀ e ∈ allFiles roT, e.2.isLink = false → e.2.sha1 ≠ none) := by
  rcases Checkout_ok_dissect hok with ⟨roT2, oldInfos, hro2, hold, _, hout⟩
  rw [hroT] at hro2
  injection hro2 with hroEq
  subst hroEq
  rw [if_neg (by simpa using hne), hname, hroT] at hold
  have hold2 : (Except.ok (allFiles roT) : Except CkErr FileMap) = Except.ok oldInfos := hold
  injection hold2 with hold3
  rw [← hold3] at hout
  have hself := changedFiles_self_diff (allFiles roT) hnodup
  have hmap : ∀ (l : List String),
      (l.map (fun p => goJoin (goClean ro0) p) = []) ↔ l = [] := by
    intro l
    cases l with
    | nil => simp
    | cons a l => simp
  constructor
  · rw [hout, hself.1]
  · rw [hout, hmap (changedFiles (allFiles roT) (allFiles roT))]
    exact hself.2

/-- Witness for the amended C8 at a concrete input: the second run of the
`env8` checkout is warm (the cleaner recovers `ws`), and its change list
`["/m/ws/cp"]` is exactly the absent-fingerprint characterization. -/
theorem claim_C8_witness :
    (["/m/ws/cp"] : List String) =
      (sortStrings (((allFiles roT8).filter
          (fun e => !e.2.isLink && e.2.sha1.isNone)).map (·.1))).map
        (fun p => goJoin (goClean "/m/ws") p) ∧
    ((["/m/ws/cp"] : List String) = [] ↔
      ∀ e ∈ allFiles roT8, e.2.isLink = false → e.2.sha1 ≠ none) :=
  claim_C8_amended env8 20 "/m/ws" "/rw" fs8b fs8b ["/m/ws/cp"] roT8
    rfl (by decide) (by decide) rfl (by decide)

/-! ## C10: the change list is a function of the snapshot metadata only -/

/-- `getSHA1` (deref.go lines 133-148): lazily resolve a fingerprint from
the `user.gitsha1` extended attribute; a missing attribute or a malformed
hex id is an error.  The function has no call site in the package: no
part of `Checkout` ever invokes it. -/
def getSHA1 (xattr : String → Option String) (fi : fileInfo) (fn : String) :
    Option (Oid × fileInfo) :=
  match fi.sha1 with
  | some o => some (o, fi)
  | none =>
    match xattr fn with
    | none => none
    | some s =>
      match gitNewOid s with
      | none => none
      | some oid => some (oid, { fi with sha1 := some oid })

/-- `Checkout` run in a world that also carries the `user.gitsha1` xattr
oracle `getSHA1` would consult; the oracle is passed through untouched
because the source never calls `getSHA1`. -/
def CheckoutW (xattr : String → Option String) (env : SlothEnv) (fuel : Nat)
    (ro0 rw : String) (fs : FS) : Except CkErr (FS × List String) :=
  Checkout env fuel ro0 rw fs

/-- C10: two successful runs over the same snapshot metadata whose
writable directories yield the same prior-workspace inference return the
same change list, whatever their other writable content and whatever the
xattr oracles answer — the list depends only on the prior and new
snapshot trees, and the lazy xattr resolution is never exercised. -/
theorem claim_C10 (env : SlothEnv) (fuel1 fuel2 : Nat) (ro0 rw : String)
    (fs1 fs2 : FS) (xattr1 xattr2 : String → Option String)
    (hname : (clearLinksFS (goDir (goClean ro0)) (strToPath rw) fs1).2 =
             (clearLinksFS (goDir (goClean ro0)) (strToPath rw) fs2).2)
    (r1 r2 : FS × List String)
    (h1 : CheckoutW xattr1 env fuel1 ro0 rw fs1 = Except.ok r1)
    (h2 : CheckoutW xattr2 env fuel2 ro0 rw fs2 = Except.ok r2) :
    r1.2 = r2.2 := by
  rcases r1 with ⟨fs1o, out1⟩
  rcases r2 with ⟨fs2o, out2⟩
  have h1c : Checkout env fuel1 ro0 rw fs1 = Except.ok (fs1o, out1) := h1
  have h2c : Checkout env fuel2 ro0 rw fs2 = Except.ok (fs2o, out2) := h2
  rcases Checkout_ok_dissect h1c with ⟨roT1, old1, hro1, hinfo1, _, hout1⟩
  rcases Checkout_ok_dissect h2c with ⟨roT2, old2, hro2, hinfo2, _, hout2⟩
  have hroeq : roT1 = roT2 := by
    rw [hro1] at hro2
    injection hro2
  have holdeq : old1 = old2 := by
    rw [← hname] at hinfo2
    rw [hinfo1] at hinfo2
    injection hinfo2
  show out1 = out2
  rw [hout1, hout2, hroeq, holdeq]

/-- Witness for C10 at a concrete input: two writable directories with
different user files and two different xattr oracles give the same change
list. -/
theorem claim_C10_witness :
    (fs8b, ["/m/ws/a/f", "/m/ws/cp"]).2 =
      ((fs8 ++ [(["rw", "v"], FNode.file 9), (["rw", "a"], FNode.link "/m/ws/a")] : FS),
        ["/m/ws/a/f", "/m/ws/cp"]).2 :=
  claim_C10 env8 20 20 "/m/ws" "/rw" fs8 (fs8 ++ [(["rw", "v"], FNode.file 9)])
    (fun _ => none) (fun _ => some "ff") rfl
    (fs8b, ["/m/ws/a/f", "/m/ws/cp"])
    ((fs8 ++ [(["rw", "v"], FNode.file 9), (["rw", "a"], FNode.link "/m/ws/a")] : FS),
      ["/m/ws/a/f", "/m/ws/cp"])
    rfl rfl

/-! ## C3: coverage of the writable tree -/

theorem strMk_data (s : String) : (⟨s.data⟩ : String) = s := by
  cases s
  rfl

theorem strToPath_append_slash (a b : String) :
    strToPath (a ++ "/" ++ b) = strToPath a ++ strToPath b := by
  unfold strToPath
  have hdata : (a ++ "/" ++ b).data = a.data ++ '/' :: b.data := by
    rw [strData_append, strData_append]
    simp
  rw [hdata, splitSlash_append_slash, List.filterMap_append]

/-- A clean, slash-free, nonempty key is a single path segment. -/
theorem strToPath_single {s : String} (hne : s.data ≠ [])
    (hslash : ('/' : Char) ∉ s.data) : strToPath s = [s] := by
  unfold strToPath
  have hsplit : splitSlash s.data = [s.data] := by
    have hgen : ∀ (l : List Char), ('/' : Char) ∉ l → l ≠ [] → splitSlash l = [l] := by
      intro l
      induction l with
      | nil => intro _ h; exact absurd rfl h
      | cons c cs ih =>
        intro hm _
        rw [splitSlash_cons]
        rw [if_neg (by simp only [beq_iff_eq]; intro hc; exact hm (by rw [hc]; simp))]
        by_cases hcs : cs = []
        · rw [hcs]
          rfl
        · rw [ih (fun hmem => hm (by simp [hmem])) hcs]
    exact hgen s.data hslash hne
  rw [hsplit]
  have hone : (if (s.data == ([] : List Char)) then (none : Option String)
      else some ⟨s.data⟩) = some s := by
    rw [if_neg (by simpa using hne), strMk_data]
  simp only [List.filterMap_cons, List.filterMap_nil, hone]

theorem lookupFS_append_right {fs extra : FS} {q : FPath}
    (h : lookupFS fs q = none) : lookupFS (fs ++ extra) q = lookupFS extra q := by
  unfold lookupFS at *
  rw [List.find?_append]
  rcases hf : fs.find? (fun e => e.1 == q) with _ | e
  · rw [hf]
    simp
  · rw [hf] at h
    simp at h

theorem lookupFS_none_of_no_key {fs : FS} {q : FPath}
    (h : ∀ e ∈ fs, e.1 ≠ q) : lookupFS fs q = none := by
  unfold lookupFS
  rcases hf : fs.find? (fun e => e.1 == q) with _ | e
  · rw [hf]
    rfl
  · have hmem := List.mem_of_find?_eq_some hf
    have hkey := List.find?_some hf
    simp only [beq_iff_eq] at hkey
    exact absurd hkey (h e hmem)

theorem isStrictUnder_append {p : FPath} {r : FPath} (hr : r ≠ []) :
    isStrictUnder p (p ++ r) = true := by
  unfold isStrictUnder
  rw [Bool.and_eq_true_iff]
  constructor
  · exact List.isPrefixOf_iff_prefix.2 ⟨r, rfl⟩
  · simp only [decide_eq_true_eq, List.length_append]
    have : 0 < r.length := List.length_pos.2 hr
    omega

theorem resolvePath_cons_eq (fs : FS) (fuel : Nat) (acc : FPath) (seg : String)
    (rest : FPath) :
    resolvePath fs (fuel + 1) acc (seg :: rest) =
      (match lookupFS fs (acc ++ [seg]) with
       | some FNode.dir => resolvePath fs fuel (acc ++ [seg]) rest
       | some (FNode.link t) => resolvePath fs fuel [] (strToPath t ++ rest)
       | some (FNode.file _) => if rest.isEmpty then some (acc ++ [seg]) else none
       | none => none) := rfl

/-- Resolution walks straight through a chain of directories. -/
theorem resolvePath_through_dirs (fs : FS) :
    ∀ (pre rest acc : FPath) (fuel : Nat), pre.length < fuel →
    (∀ q, q ≠ [] → q <+: pre → lookupFS fs (acc ++ q) = some FNode.dir) →
    resolvePath fs fuel acc (pre ++ rest) =
      resolvePath fs (fuel - pre.length) (acc ++ pre) rest := by
  intro pre
  induction pre with
  | nil =>
    intro rest acc fuel _ _
    simp
  | cons s pre2 ih =>
    intro rest acc fuel hfuel hchain
    cases fuel with
    | zero => simp at hfuel
    | succ f =>
      have hred : resolvePath fs (f + 1) acc ((s :: pre2) ++ rest) =
          resolvePath fs f (acc ++ [s]) (pre2 ++ rest) := by
        rw [List.cons_append, resolvePath_cons_eq, hchain [s] (by simp) ⟨pre2, rfl⟩]
      have h2 := ih rest (acc ++ [s]) f
        (by simp only [List.length_cons] at hfuel; omega)
        (fun q hq hqp => by
          rw [List.append_assoc]
          refine hchain (s :: q) (by simp) ?_
          rcases hqp with ⟨t, ht⟩
          exact ⟨t, by rw [← ht]; exact List.cons_append s q t⟩)
      show resolvePath fs (f + 1) acc ((s :: pre2) ++ rest) = _
      rw [hred, h2, List.append_assoc]
      congr 1
      simp only [List.length_cons]
      omega

/-! ## C3: coverage of the writable tree -/

/-- Decidable statement that every nonempty prefix of `p` is bound to a
directory. -/
def dirChain (fs : FS) (p : FPath) : Bool :=
  (List.range p.length).all (fun k => lookupFS fs (p.take (k + 1)) == some FNode.dir)

theorem dirChain_spec {fs : FS} {p : FPath} (h : dirChain fs p = true) :
    ∀ q, q ≠ [] → q <+: p → lookupFS fs q = some FNode.dir := by
  intro q hq hqp
  have hlen : q.length ≤ p.length := hqp.length_le
  have hpos : 0 < q.length := List.length_pos.2 hq
  have htake : q = p.take q.length := List.prefix_iff_eq_take.1 hqp
  unfold dirChain at h
  rw [List.all_eq_true] at h
  have hk := h (q.length - 1) (by rw [List.mem_range]; omega)
  rw [show q.length - 1 + 1 = q.length from by omega, ← htake] at hk
  simpa using hk

theorem resolvePath_nil_eq (fs : FS) (k : Nat) (acc : FPath) :
    resolvePath fs (k + 1) acc [] = some acc := rfl

/-- `MkdirAll` is a no-op on a path whose every prefix already is a
directory. -/
theorem mkdirAllGo_no_op (fs : FS) (fuel : Nat) :
    ∀ (p acc : FPath),
    (∀ q, q ≠ [] → q <+: p → lookupFS fs (acc ++ q) = some FNode.dir) →
    mkdirAllGo fs fuel acc p = some fs := by
  intro p
  induction p with
  | nil => intro acc _; rfl
  | cons s rest ih =>
    intro acc hchain
    rw [mkdirAllGo_cons_eq, hchain [s] (by simp) ⟨rest, rfl⟩]
    show mkdirAllGo fs fuel (acc ++ [s]) rest = some fs
    exact ih (acc ++ [s]) (fun q hq hqp => by
      rw [List.append_assoc]
      refine hchain (s :: q) (by simp) ?_
      rcases hqp with ⟨t, ht⟩
      exact ⟨t, by rw [← ht]; exact List.cons_append s q t⟩)

/-- Against the candidate list `[""]` (an empty writable tree) every child
is classified for a whole-tree symlink. -/
theorem classifyChild_root (nm : String) :
    classifyChild nm [""] = LinkDecision.fullLink := rfl

theorem allChildren_map_root {t : repoTree} (h : t.children = []) :
    (allChildren t).map (·.1) = [""] := by
  rcases t with ⟨ch, ent⟩
  have h2 : ch = [] := h
  subst h2
  rfl

/-- Cold-checkout behaviour of the planner: when the writable tree has no
repositories (candidate list `[""]`), every child of the read-only tree
with a clean single-segment name and a free writable slot gets exactly one
whole-tree symlink appended, in child order. -/
theorem createTreeLinksList_cold (fuel : Nat) (ro rw : String) (rwT : repoTree)
    (fs : FS)
    (hfuel : (strToPath rw).length < fuel)
    (hchain : ∀ q, q ≠ [] → q <+: strToPath rw → lookupFS fs q = some FNode.dir) :
    ∀ (children : List (String × repoTree)) (extra : FS),
    (children.map Prod.fst).Nodup →
    (∀ e ∈ children, goJoin rw e.1 = rw ++ "/" ++ e.1 ∧ strToPath e.1 = [e.1] ∧
      lookupFS fs (strToPath rw ++ [e.1]) = none) →
    (∀ x ∈ extra, ∀ e ∈ children, x.1 ≠ strToPath rw ++ [e.1]) →
    createTreeLinksList fuel children [""] rwT ro rw (fs ++ extra) =
      some (fs ++ extra ++ children.map
        (fun e => (strToPath rw ++ [e.1], FNode.link (goJoin ro e.1)))) := by
  intro children
  induction children with
  | nil =>
    intro extra _ _ _
    show some (fs ++ extra) = some (fs ++ extra ++ [])
    rw [List.append_nil]
  | cons hd rest ih =>
    rcases hd with ⟨nm, ch⟩
    intro extra hnd hprops hdisj
    obtain ⟨hj, hsingle, habs⟩ := hprops (nm, ch) (List.mem_cons_self _ _)
    have hpath : strToPath (goJoin rw nm) = strToPath rw ++ [nm] := by
      rw [hj, strToPath_append_slash, hsingle]
    have hmk : mkdirAll (fs ++ extra) fuel (strToPath (goJoin rw nm)).dropLast =
        some (fs ++ extra) := by
      rw [hpath, List.dropLast_concat]
      exact mkdirAllGo_no_op (fs ++ extra) fuel (strToPath rw) []
        (fun q hq hqp => by
          rw [List.nil_append]
          exact lookupFS_append_of_some (hchain q hq hqp))
    have hnone : lookupFS (fs ++ extra) (strToPath rw ++ [nm]) = none := by
      rw [lookupFS_append_right habs]
      exact lookupFS_none_of_no_key (fun x hx =>
        hdisj x hx (nm, ch) (List.mem_cons_self _ _))
    have hres : resolvePath (fs ++ extra) fuel [] (strToPath rw) =
        some (strToPath rw) := by
      have h1 := resolvePath_through_dirs (fs ++ extra) (strToPath rw) [] [] fuel hfuel
        (fun q hq hqp => by
          rw [List.nil_append]
          exact lookupFS_append_of_some (hchain q hq hqp))
      rw [List.append_nil] at h1
      rw [h1, List.nil_append]
      obtain ⟨k, hk⟩ : ∃ k, fuel - (strToPath rw).length = k + 1 :=
        ⟨fuel - (strToPath rw).length - 1, by omega⟩
      rw [hk, resolvePath_nil_eq]
    have hsym : symlinkFS (fs ++ extra) fuel (goJoin ro nm) (strToPath (goJoin rw nm)) =
        some (fs ++ extra ++ [(strToPath rw ++ [nm], FNode.link (goJoin ro nm))]) := by
      rw [hpath]
      unfold symlinkFS
      rw [List.getLast?_concat, List.dropLast_concat, hres]
      show (match lookupFS (fs ++ extra) (strToPath rw ++ [nm]) with
         | some _ => none
         | none => some ((fs ++ extra) ++
             [(strToPath rw ++ [nm], FNode.link (goJoin ro nm))])) = _
      rw [hnone]
    have step1 : createTreeLinksList fuel ((nm, ch) :: rest) [""] rwT ro rw (fs ++ extra) =
        (match mkdirAll (fs ++ extra) fuel (strToPath (goJoin rw nm)).dropLast with
         | none => none
         | some fs2 =>
           match symlinkFS fs2 fuel (goJoin ro nm) (strToPath (goJoin rw nm)) with
           | none => none
           | some fs3 => createTreeLinksList fuel rest [""] rwT ro rw fs3) := rfl
    rw [step1, hmk]
    show (match symlinkFS (fs ++ extra) fuel (goJoin ro nm) (strToPath (goJoin rw nm)) with
       | none => none
       | some fs3 => createTreeLinksList fuel rest [""] rwT ro rw fs3) = _
    rw [hsym]
    show createTreeLinksList fuel rest [""] rwT ro rw
        (fs ++ extra ++ [(strToPath rw ++ [nm], FNode.link (goJoin ro nm))]) = _
    simp only [List.map_cons] at hnd
    have hrec := ih (extra ++ [(strToPath rw ++ [nm], FNode.link (goJoin ro nm))])
      (List.nodup_cons.1 hnd).2
      (fun e he => hprops e (List.mem_cons_of_mem _ he))
      (by
        intro x hx e he
        rcases List.mem_append.1 hx with hx1 | hx2
        · exact hdisj x hx1 e (List.mem_cons_of_mem _ he)
        · have hxe : x = (strToPath rw ++ [nm], FNode.link (goJoin ro nm)) := by
            simpa using hx2
          rw [hxe]
          intro hcontra
          have h5 : ([nm] : List String) = [e.1] := List.append_cancel_left hcontra
          have h6 : nm = e.1 := by injection h5
          exact (List.nodup_cons.1 hnd).1
            (by rw [h6]; exact List.mem_map.2 ⟨e, he, rfl⟩))
    rw [← List.append_assoc] at hrec
    rw [hrec]
    simp [List.append_assoc]

/-- Resolution of `rw/nm/mid/last` through the whole-tree symlink at
`rw/nm`: walk the writable directory chain, follow the link onto the
read-only side, walk its directory chain, and end at the file. -/
theorem resolve_via_link (fs2 : FS) (rwP roQ mid : FPath) (nm lastSeg : String)
    (v : Nat) (T : String)
    (h1 : ∀ q, q ≠ [] → q <+: rwP → lookupFS fs2 q = some FNode.dir)
    (h2 : lookupFS fs2 (rwP ++ [nm]) = some (FNode.link T))
    (hT : strToPath T = roQ ++ [nm])
    (h3 : ∀ q, q ≠ [] → q <+: roQ ++ [nm] ++ mid → lookupFS fs2 q = some FNode.dir)
    (h4 : lookupFS fs2 (roQ ++ [nm] ++ mid ++ [lastSeg]) = some (FNode.file v)) :
    resolvePath fs2 (rwP.length + 1 + ((roQ ++ [nm] ++ mid).length + 1)) []
      (rwP ++ [nm] ++ mid ++ [lastSeg]) =
      some (roQ ++ [nm] ++ mid ++ [lastSeg]) := by
  have h3b : ∀ q, q ≠ [] → q <+: roQ ++ ([nm] ++ mid) → lookupFS fs2 q = some FNode.dir := by
    intro q hq hqp
    refine h3 q hq ?_
    rw [List.append_assoc]
    exact hqp
  have h4b : lookupFS fs2 ((roQ ++ ([nm] ++ mid)) ++ [lastSeg]) = some (FNode.file v) := by
    rw [show ((roQ ++ ([nm] ++ mid)) ++ [lastSeg] : FPath) =
      roQ ++ [nm] ++ mid ++ [lastSeg] from by simp]
    exact h4
  simp only [List.append_assoc]
  rw [resolvePath_through_dirs fs2 rwP ([nm] ++ (mid ++ [lastSeg])) [] _ (by omega)
    (fun q hq hqp => by rw [List.nil_append]; exact h1 q hq hqp)]
  rw [List.nil_append]
  rw [show rwP.length + 1 + ((roQ ++ ([nm] ++ mid)).length + 1) - rwP.length =
    ((roQ ++ ([nm] ++ mid)).length + 1) + 1 from by omega]
  rw [show ([nm] ++ (mid ++ [lastSeg]) : FPath) = nm :: (mid ++ [lastSeg]) from rfl]
  rw [resolvePath_cons_eq, h2]
  show resolvePath fs2 ((roQ ++ ([nm] ++ mid)).length + 1) []
      (strToPath T ++ (mid ++ [lastSeg])) =
    some (roQ ++ ([nm] ++ (mid ++ [lastSeg])))
  rw [hT]
  rw [show ((roQ ++ [nm]) ++ (mid ++ [lastSeg]) : FPath) =
    (roQ ++ ([nm] ++ mid)) ++ [lastSeg] from by simp]
  rw [resolvePath_through_dirs fs2 (roQ ++ ([nm] ++ mid)) [lastSeg] [] _ (by omega)
    (fun q hq hqp => by rw [List.nil_append]; exact h3b q hq hqp)]
  rw [List.nil_append]
  rw [show (roQ ++ ([nm] ++ mid)).length + 1 - (roQ ++ ([nm] ++ mid)).length =
    0 + 1 from by omega]
  rw [resolvePath_cons_eq, h4b]
  show (if ([] : FPath).isEmpty then some ((roQ ++ ([nm] ++ mid)) ++ [lastSeg]) else none) =
    some (roQ ++ ([nm] ++ (mid ++ [lastSeg])))
  rw [if_pos (show ([] : FPath).isEmpty = true from rfl)]
  simp [List.append_assoc]

/-- A snapshot with no projects whose root `tree.json` carries one file
`f`. -/
def env3 : SlothEnv where
  readManifest := fun f =>
    if f == "/m/ws/.slothfs/manifest.xml" then some [] else none
  readTreeJSON := fun f =>
    if f == "/m/ws/.slothfs/tree.json" then
      some [⟨"f", "00000000000000000000000000000000000000ff", none⟩]
    else none

def fs3 : FS :=
  [(["m"], FNode.dir), (["m", "ws"], FNode.dir), (["m", "ws", "f"], FNode.file 1),
   (["rw"], FNode.dir)]

/-- The read-only tree `env3` derefs to: no repositories, one root file. -/
def tree3 : repoTree := repoTree.mk [] [("f", fileInfo.mk (some oidF) false)]

/-- The read-only tree `env9` derefs to: one project `a` holding one
file `f`, nothing at the root. -/
def tree9 : repoTree := repoTree.mk [("a", chA8)] []

/-- A snapshot with one project `a` (one file `f`, empty root
`tree.json`). -/
def env9 : SlothEnv where
  readManifest := fun f =>
    if f == "/m/ws/.slothfs/manifest.xml" then some [⟨"a", [], []⟩] else none
  readTreeJSON := fun f =>
    if f == "/m/ws/.slothfs/tree.json" then some []
    else if f == "/m/ws/a/.slothfs/tree.json" then
      some [⟨"f", "00000000000000000000000000000000000000ff", none⟩]
    else none

/-- A writable directory that already holds a genuine checkout of project
`a` (a non-empty `.git` and a user file) but not the file `f`. -/
def fs9 : FS :=
  [(["m"], FNode.dir), (["m", "ws"], FNode.dir), (["m", "ws", "a"], FNode.dir),
   (["m", "ws", "a", "f"], FNode.file 1), (["rw"], FNode.dir),
   (["rw", "a"], FNode.dir), (["rw", "a", ".git"], FNode.dir),
   (["rw", "a", ".git", "config"], FNode.file 2), (["rw", "a", "u"], FNode.file 3)]

/-- C3: coverage fails although `Checkout` succeeds, in two distinct ways.
World one (`env3`/`fs3`): the flattened file map holds the root-level file
`f` and the checkout even reports `/m/ws/f` as changed, yet `rw/f` does
not resolve at all — `createTreeLinks` walks only repository children, and
the `createLinks` loop never calls `symlinkRepo` for the root repository
because its key `""` is always among the writable tree's repository keys.
World two (`env9`/`fs9`): the writable tree already holds a repository at
`rw/a`, so pass one recurses into project `a` (linking none of its files,
since the planner only handles repository children) and pass two skips it
(`"a"` is among the writable repository keys), leaving `rw/a/f`
unresolvable while `/m/ws/a/f` is reported as changed. -/
theorem claim_C3 :
    (Checkout env3 20 "/m/ws" "/rw" fs3 = Except.ok (fs3, ["/m/ws/f"]) ∧
     repoTreeFromSlothFS env3 (goClean "/m/ws") = Except.ok tree3 ∧
     lookupFM (allFiles tree3) "f" = some (fileInfo.mk (some oidF) false) ∧
     resolvePath fs3 20 [] (strToPath (goJoin "/rw" "f")) = none) ∧
    (Checkout env9 20 "/m/ws" "/rw" fs9 = Except.ok (fs9, ["/m/ws/a/f"]) ∧
     repoTreeFromSlothFS env9 (goClean "/m/ws") = Except.ok tree9 ∧
     lookupFM (allFiles tree9) "a/f" = some (fileInfo.mk (some oidF) false) ∧
     resolvePath fs9 20 [] (strToPath (goJoin "/rw" "a/f")) = none) :=
  ⟨⟨rfl, rfl, rfl, rfl⟩, ⟨rfl, rfl, rfl, rfl⟩⟩
